import Mathlib

/-!
# grb: the snippet store of `main.go`

A shallow embedding of the persistence layer of `grb` (a clipboard snippet
manager written in Go on top of a bbolt bucket) together with theorems about
its operations.

Modelling conventions.

* A Go `string` is a Lean `String`; the stored values are UTF-8 text, on which
  splitting at the byte `|` and splitting at the character `|` agree.
* The bbolt bucket `snippets` is a list of key/value pairs kept in the byte
  order of the keys, plus the bucket's `uint64` sequence counter.  A cursor
  scan (`c.First()` … `c.Next()`) visits the pairs as they stood when the
  transaction began.
* `time.Now().Unix()` is an explicit argument `now`; a Go `int` has 64 bits.
* The case table behind `strings.ToLower` is a parameter `lower`.
* An index that is out of range makes the Go program panic; bbolt rolls the
  transaction back.  Operations that can panic return `Option`, with `none`
  for the panic.
* Terminal output, colours and the clipboard write are not part of the model.
-/

namespace Grb

/-! ## Strings -/

/-- The fields of `cs` between the `|` characters, as `strings.Split(_, "|")`
produces them on the level of characters: one more field than separators. -/
def splitChars : List Char → List (List Char)
  | [] => [[]]
  | c :: cs =>
    if c = '|' then [] :: splitChars cs
    else
      match splitChars cs with
      | [] => [[c]]
      | f :: fs => (c :: f) :: fs

/-- Go: `strings.Split(s, "|")`. -/
def split (s : String) : List String :=
  (splitChars s.data).map String.mk

/-- Go: `strings.Join(fields, "|")`. -/
def join : List String → String
  | [] => ""
  | [f] => f
  | f :: g :: fs => f ++ "|" ++ join (g :: fs)

/-- Whether `sub` occurs in `cs` as a contiguous block. -/
def containsChars (cs sub : List Char) : Bool :=
  match cs with
  | [] => sub.isEmpty
  | c :: rest => sub.isPrefixOf (c :: rest) || containsChars rest sub

/-- Go: `strings.Contains(s, substr)`. -/
def contains (s substr : String) : Bool :=
  containsChars s.data substr.data

/-- Go: `strings.ToLower(s)`, rune by rune through the case table `lower`
(`unicode.ToLower` of the Go standard library). -/
def toLower (lower : Char → Char) (s : String) : String :=
  String.mk (s.data.map lower)

/-- Byte order of two keys (`bytes.Compare(a, b) < 0`), on characters. -/
def lessChars : List Char → List Char → Bool
  | _, [] => false
  | [], _ :: _ => true
  | a :: as, b :: bs =>
    if a.toNat < b.toNat then true
    else if b.toNat < a.toNat then false
    else lessChars as bs

/-- The order in which bbolt keeps the keys of a bucket. -/
def keyLess (a b : String) : Bool :=
  lessChars a.data b.data

/-! ## Integers -/

/-- A Go `int` (64 bits): the representative of `z` in `[-2^63, 2^63)`. -/
def wrapInt (z : Int) : Int :=
  (z + 2 ^ 63) % 2 ^ 64 - 2 ^ 63

/-- The blanks that `fmt` scanning skips (`isSpace` of package `fmt`), the
newline apart. -/
def isBlank (c : Char) : Bool :=
  let n := c.toNat
  n = 0x09 || n = 0x0b || n = 0x0c || n = 0x0d || n = 0x20 || n = 0x85 || n = 0xa0
    || n = 0x1680 || (0x2000 ≤ n && n ≤ 0x200a) || n = 0x2028 || n = 0x2029
    || n = 0x202f || n = 0x205f || n = 0x3000

/-- The value of a run of decimal digits. -/
def digitsValue (ds : List Char) : Nat :=
  ds.foldl (fun acc d => 10 * acc + (d.toNat - '0'.toNat)) 0

/-- The optional sign in front of a number (`s.accept(sign)` of package
`fmt`): whether it was a minus, and what follows it. -/
def acceptSign : List Char → Bool × List Char
  | '-' :: t => (true, t)
  | '+' :: t => (false, t)
  | t => (false, t)

/-- Go: `count := 0; fmt.Sscanf(s, "%d", &count)`, the value of `count`
afterwards.  Scanning skips leading blanks (a newline is an error), accepts one
sign and then the longest run of decimal digits; when there is no digit or the
number does not fit an `int`, the scan fails and `count` keeps its `0`. -/
def sscanfInt (s : String) : Int :=
  let signed := acceptSign (s.data.dropWhile isBlank)
  let ds := signed.2.takeWhile Char.isDigit
  if ds.isEmpty then 0
  else
    let v : Int := if signed.1 then - (digitsValue ds : Int) else (digitsValue ds : Int)
    if - 2 ^ 63 ≤ v ∧ v < 2 ^ 63 then v else 0

/-! ## The bucket -/

/-- A stored record: the key (the decimal id) and the value
`text|tag|alias|pinned|useCount|createdAt`. -/
abbrev Entry := String × String

/-- The bbolt bucket `snippets`. -/
structure Bucket where
  /-- The `uint64` sequence counter of the bucket. -/
  sequence : Nat
  /-- The key/value pairs in cursor order. -/
  entries : List Entry
deriving DecidableEq, Repr

/-- The bucket right after `initDB` created it. -/
def Bucket.empty : Bucket :=
  { sequence := 0, entries := [] }

/-- Keys strictly increasing in byte order: what bbolt maintains. -/
def SortedKeys (es : List Entry) : Prop :=
  es.Pairwise (fun a b => keyLess a.1 b.1 = true)

/-- Insert or overwrite `k` in a key-ordered list. -/
def putEntries (k v : String) : List Entry → List Entry
  | [] => [(k, v)]
  | e :: es =>
    if e.1 = k then (k, v) :: es
    else if keyLess k e.1 then (k, v) :: e :: es
    else e :: putEntries k v es

/-- Remove `k` from a key-ordered list. -/
def deleteEntries (k : String) : List Entry → List Entry
  | [] => []
  | e :: es => if e.1 = k then es else e :: deleteEntries k es

/-- bbolt: `b.Put(k, v)`. -/
def Bucket.put (b : Bucket) (k v : String) : Bucket :=
  { b with entries := putEntries k v b.entries }

/-- bbolt: `b.Delete(k)`. -/
def Bucket.delete (b : Bucket) (k : String) : Bucket :=
  { b with entries := deleteEntries k b.entries }

/-- bbolt: `b.Get(k)`. -/
def Bucket.get (b : Bucket) (k : String) : Option String :=
  (b.entries.find? (fun e => e.1 == k)).map Prod.snd

/-- bbolt: `b.NextSequence()`, the incremented `uint64` counter. -/
def Bucket.nextSequence (b : Bucket) : Nat × Bucket :=
  let id := (b.sequence + 1) % 2 ^ 64
  (id, { b with sequence := id })

/-! ## Records -/

/-- Go: `fmt.Sprintf("%s|%s|%s|%s|%s|%s", a, b, c, d, e, f)`. -/
def sprintf6 (a b c d e f : String) : String :=
  a ++ "|" ++ b ++ "|" ++ c ++ "|" ++ d ++ "|" ++ e ++ "|" ++ f

/-- The display value of field `i`, as `listSnippets`, `searchSnippets`,
`copySnippet` and `pinSnippet` read the tag and the alias:
`x := "-"; if len(fields) > i && fields[i] != "" { x = fields[i] }`. -/
def shown (fields : List String) (i : Nat) : String :=
  if fields.length > i ∧ fields.getD i "" ≠ "" then fields.getD i "" else "-"

/-- The pinned flag as `listSnippets`, `searchSnippets` and `pinSnippet` read
it: `p := "false"; if len(fields) > 3 { p = fields[3] }`. -/
def pinnedFlag (fields : List String) : String :=
  if fields.length > 3 then fields.getD 3 "" else "false"

/-- The use count as `copySnippet` reads it:
`u := "0"; if len(fields) > 4 { u = fields[4] }`. -/
def useCountField (fields : List String) : String :=
  if fields.length > 4 then fields.getD 4 "" else "0"

/-- A stored field by position, empty when the record is too short. -/
def field (v : String) (i : Nat) : String :=
  (split v).getD i ""

/-! ## saveSnippet -/

/-- Go: the transaction of `saveSnippet(text, tag, alias)`; returns the id
drawn from the sequence, whose decimal rendering is the key. -/
def saveSnippet (text tag aliasStr : String) (now : Int) (b : Bucket) : Nat × Bucket :=
  let (id, b1) := b.nextSequence
  let newID := toString id
  let val := sprintf6 text tag aliasStr "false" "0" (toString now)
  (id, b1.put newID val)

/-! ## copySnippet -/

/-- The value `copySnippet` writes back for a matched entry with these fields:
`count++` on the scanned use count and a fresh timestamp; `none` is the panic
of `fields[3]` on a record of fewer than four fields. -/
def copyValue (fields : List String) (now : Int) : Option String :=
  let text := fields.headD ""
  let tag := shown fields 1
  let aliasStr := shown fields 2
  let useCount := useCountField fields
  match fields[3]? with
  | none => none
  | some pinned =>
    let count := wrapInt (sscanfInt useCount + 1)
    some (sprintf6 text tag aliasStr pinned (toString count) (toString now))

/-- The cursor loop of `copySnippet` over the entries still to visit. -/
def copyScan (idOrAlias : String) (now : Int) (b : Bucket) :
    List Entry → Option (Bool × Bucket)
  | [] => some (false, b)
  | (k, v) :: rest =>
    let fields := split v
    let aliasStr := shown fields 2
    if k = idOrAlias ∨ aliasStr = idOrAlias then
      match copyValue fields now with
      | none => none
      | some newVal => some (true, b.put k newVal)
    else copyScan idOrAlias now b rest

/-- Go: the transaction of `copySnippet(idOrAlias)`; the flag is `found`. -/
def copySnippet (idOrAlias : String) (now : Int) (b : Bucket) : Option (Bool × Bucket) :=
  copyScan idOrAlias now b b.entries

/-! ## pinSnippet -/

/-- The value `pinSnippet` writes back for a matched entry with these fields:
the pinned flag toggled and a fresh timestamp; `none` is the panic of
`fields[4]` on a record of fewer than five fields. -/
def pinValue (fields : List String) (now : Int) : Option String :=
  let text := fields.headD ""
  let tag := shown fields 1
  let aliasStr := shown fields 2
  let pinned := pinnedFlag fields
  let newPinned := if pinned = "true" then "false" else "true"
  match fields[4]? with
  | none => none
  | some useCount => some (sprintf6 text tag aliasStr newPinned useCount (toString now))

/-- The cursor loop of `pinSnippet` over the entries still to visit. -/
def pinScan (idOrAlias : String) (now : Int) (b : Bucket) :
    List Entry → Option (Bool × Bucket)
  | [] => some (false, b)
  | (k, v) :: rest =>
    let fields := split v
    let aliasStr := shown fields 2
    if k = idOrAlias ∨ aliasStr = idOrAlias then
      match pinValue fields now with
      | none => none
      | some newVal => some (true, b.put k newVal)
    else pinScan idOrAlias now b rest

/-- Go: the transaction of `pinSnippet(idOrAlias)`; the flag is `found`. -/
def pinSnippet (idOrAlias : String) (now : Int) (b : Bucket) : Option (Bool × Bucket) :=
  pinScan idOrAlias now b b.entries

/-! ## updateAlias -/

/-- The cursor loop of `updateAlias` over the entries still to visit. -/
def aliasScan (idOrAlias newAlias : String) (b : Bucket) :
    List Entry → Option (Bool × Bucket)
  | [] => some (false, b)
  | (k, v) :: rest =>
    let fields := split v
    match fields[2]? with
    | none => none
    | some aliasStr =>
      if k = idOrAlias ∨ aliasStr = idOrAlias then
        some (true, b.put k (join (fields.set 2 newAlias)))
      else aliasScan idOrAlias newAlias b rest

/-- Go: the transaction of `updateAlias(idOrAlias, newAlias)`; the flag is
`updated`. -/
def updateAlias (idOrAlias newAlias : String) (b : Bucket) : Option (Bool × Bucket) :=
  aliasScan idOrAlias newAlias b b.entries

/-! ## deleteSnippet -/

/-- The cursor loop of `deleteSnippet` over the entries still to visit. -/
def deleteScan (idOrAlias : String) (b : Bucket) : List Entry → Option (Bool × Bucket)
  | [] => some (false, b)
  | (k, v) :: rest =>
    let fields := split v
    match fields[2]? with
    | none => none
    | some aliasStr =>
      if k = idOrAlias ∨ aliasStr = idOrAlias then some (true, b.delete k)
      else deleteScan idOrAlias b rest

/-- Go: the transaction of `deleteSnippet(idOrAlias)`; the flag tells whether
a snippet was deleted (`false`: "Snippet not found!"). -/
def deleteSnippet (idOrAlias : String) (b : Bucket) : Option (Bool × Bucket) :=
  deleteScan idOrAlias b b.entries

/-! ## clearSnippets -/

/-- The cursor loop of `clearSnippets` over the entries still to visit, with
the running `deleted` count. -/
def clearScan (all : Bool) (tag : String) (unpinned : Bool) :
    List Entry → Nat → Bucket → Option (Nat × Bucket)
  | [], deleted, b => some (deleted, b)
  | (k, v) :: rest, deleted, b =>
    let fields := split v
    match fields[1]?, fields[2]?, fields[3]? with
    | some t, some _, some pinned =>
      if all = true ∨ (tag ≠ "" ∧ t = tag) ∨ (unpinned = true ∧ pinned = "false") then
        clearScan all tag unpinned rest (deleted + 1) (b.delete k)
      else clearScan all tag unpinned rest deleted b
    | _, _, _ => none

/-- Go: the transaction of `clearSnippets(all, tag, unpinned)`; returns the
`deleted` count. -/
def clearSnippets (all : Bool) (tag : String) (unpinned : Bool) (b : Bucket) :
    Option (Nat × Bucket) :=
  clearScan all tag unpinned b.entries 0 b

/-! ## listSnippets and searchSnippets -/

/-- A table row `{id, text, tag, alias}` (without the colour codes). -/
abbrev Row := List String

/-- The row built for one entry. -/
def rowOf (e : Entry) : Row :=
  let fields := split e.2
  [e.1, fields.headD "", shown fields 1, shown fields 2]

/-- The cursor loop of `listSnippets`: `total`, `pinnedRows`, `otherRows`. -/
def listScan : List Entry → Nat × List Row × List Row → Nat × List Row × List Row
  | [], acc => acc
  | (k, v) :: rest, (total, pinnedRows, otherRows) =>
    let fields := split v
    let row : Row := [k, fields.headD "", shown fields 1, shown fields 2]
    if pinnedFlag fields = "true" then
      listScan rest (total + 1, pinnedRows ++ [row], otherRows)
    else
      listScan rest (total + 1, pinnedRows, otherRows ++ [row])

/-- Go: the read transaction of `listSnippets()`. -/
def listSnippets (b : Bucket) : Nat × List Row × List Row :=
  listScan b.entries (0, [], [])

/-- The match test of `searchSnippets` on the display values of an entry. -/
def searchHit (lower : Char → Char) (query : String) (fields : List String) : Bool :=
  contains (toLower lower (fields.headD "")) (toLower lower query)
    || contains (toLower lower (shown fields 1)) (toLower lower query)
    || contains (toLower lower (shown fields 2)) (toLower lower query)

/-- The cursor loop of `searchSnippets`: `resultsPinned`, `resultsOthers`. -/
def searchScan (lower : Char → Char) (query : String) :
    List Entry → List Row × List Row → List Row × List Row
  | [], acc => acc
  | (k, v) :: rest, (resultsPinned, resultsOthers) =>
    let fields := split v
    if searchHit lower query fields then
      let row : Row := [k, fields.headD "", shown fields 1, shown fields 2]
      if pinnedFlag fields = "true" then
        searchScan lower query rest (resultsPinned ++ [row], resultsOthers)
      else
        searchScan lower query rest (resultsPinned, resultsOthers ++ [row])
    else searchScan lower query rest (resultsPinned, resultsOthers)

/-- Go: the read transaction of `searchSnippets(query)`. -/
def searchSnippets (lower : Char → Char) (query : String) (b : Bucket) :
    List Row × List Row :=
  searchScan lower query b.entries ([], [])

/-! ## editSnippet -/

/-- The cursor loop of the read transaction of `editSnippet`: the loop has no
`break`, so `key` and `original` are those of the last entry that matches. -/
def editScan (idOrAlias : String) :
    List Entry → Option (String × List String) → Option (String × List String)
  | [], found => found
  | (k, v) :: rest, found =>
    let fields := split v
    let aliasStr := shown fields 2
    if k = idOrAlias ∨ aliasStr = idOrAlias then editScan idOrAlias rest (some (k, fields))
    else editScan idOrAlias rest found

/-- Go: the first phase of `editSnippet(idOrAlias)`: `key` and `original`, or
`none` when `key == nil` and the function returns. -/
def editFind (idOrAlias : String) (b : Bucket) : Option (String × List String) :=
  editScan idOrAlias b.entries none

/-- Go: the write transaction of `editSnippet`, run after the editor returned
`newText`: `original[0] = newText` and `b.Put(key, Join(original, "|"))`. -/
def editWrite (key : String) (original : List String) (newText : String) (b : Bucket) :
    Bucket :=
  b.put key (join (original.set 0 newText))

/-- Go: `editSnippet(idOrAlias)` as the process runs it: the read transaction,
the editor, which returns `newText`, and the write transaction on the bucket
that the read transaction saw, since the process holds the file lock of the
store throughout; the flag is `false` when `key == nil` and the function
returned before the editor. -/
def editSnippet (idOrAlias newText : String) (b : Bucket) : Bool × Bucket :=
  match editFind idOrAlias b with
  | none => (false, b)
  | some (key, original) => (true, editWrite key original newText b)

/-! ## startDaemon -/

/-- One iteration of the loop of `startDaemon`: `text` is what
`clipboard.ReadAll()` gave (empty when the read failed).  Returns the new
`last`, the bucket and the id of the captured snippet, if one was saved. -/
def daemonStep (text : String) (now : Int) (last : String) (b : Bucket) :
    String × Bucket × Option Nat :=
  if text ≠ "" ∧ text ≠ last then
    let (id, b1) := b.nextSequence
    let newID := toString id
    let val := sprintf6 text "auto" "" "false" "0" (toString now)
    (text, b1.put newID val, some id)
  else (last, b, none)

/-! ## Runs of commands

`initDB` opens the store file with the exclusive file lock of bbolt and the
process keeps the handle until `main` returns, so the transactions of two
`grb` processes never interleave: a command runs from its first transaction to
its last before the next process gets the file.  `step` and `run` allow more:
any order of single transactions, also other transactions between the two of
an edit and between the iterations of the daemon.  Every execution of the
program is one of these runs, so what holds of all runs holds of the program;
a run that puts a transaction between the two of one edit is not an execution
of the program, and nothing about the program is read off such a run.
-/

/-- The state that the transactions work on: the bucket, the `last` of the
daemon, and for every edit whose read transaction has run and whose write
transaction has not, the `key` and `original` it read. -/
structure Sys where
  /-- The bucket in the store file. -/
  bucket : Bucket
  /-- The variable `last` of the daemon. -/
  last : String
  /-- The edits between their two transactions, by process. -/
  editing : List (Nat × String × List String)

/-- The system before the first command. -/
def Sys.init : Sys :=
  { bucket := Bucket.empty, last := "", editing := [] }

/-- One transaction against the store. -/
inductive Op where
  /-- The command `grb save`. -/
  | save (text tag aliasStr : String) (now : Int)
  /-- One iteration of the daemon that read `text` from the clipboard. -/
  | daemon (text : String) (now : Int)
  /-- The command `grb copy`. -/
  | copy (idOrAlias : String) (now : Int)
  /-- The command `grb pin`. -/
  | pin (idOrAlias : String) (now : Int)
  /-- The command `grb alias`. -/
  | rename (idOrAlias newAlias : String)
  /-- The command `grb delete`. -/
  | delete (idOrAlias : String)
  /-- The command `grb clear`. -/
  | clear (all : Bool) (tag : String) (unpinned : Bool)
  /-- The read transaction of `grb edit` in process `proc`. -/
  | editRead (proc : Nat) (idOrAlias : String)
  /-- The write transaction of `grb edit` in process `proc`. -/
  | editSave (proc : Nat) (newText : String)

/-- The bucket after a transaction that may have panicked: a panic rolls the
transaction back. -/
def committed {α : Type} (b : Bucket) (r : Option (α × Bucket)) : Bucket :=
  match r with
  | some (_, b1) => b1
  | none => b

/-- The effect of one transaction, and the id it allocated, if any. -/
def step (s : Sys) : Op → Sys × Option Nat
  | .save text tag aliasStr now =>
    let (id, b1) := saveSnippet text tag aliasStr now s.bucket
    ({ s with bucket := b1 }, some id)
  | .daemon text now =>
    let (last1, b1, id) := daemonStep text now s.last s.bucket
    ({ s with bucket := b1, last := last1 }, id)
  | .copy x now => ({ s with bucket := committed s.bucket (copySnippet x now s.bucket) }, none)
  | .pin x now => ({ s with bucket := committed s.bucket (pinSnippet x now s.bucket) }, none)
  | .rename x a => ({ s with bucket := committed s.bucket (updateAlias x a s.bucket) }, none)
  | .delete x => ({ s with bucket := committed s.bucket (deleteSnippet x s.bucket) }, none)
  | .clear all tag unpinned =>
    ({ s with bucket := committed s.bucket (clearSnippets all tag unpinned s.bucket) }, none)
  | .editRead proc x =>
    match editFind x s.bucket with
    | some (key, original) =>
      ({ s with editing := (proc, key, original) :: s.editing.filter (fun e => e.1 ≠ proc) },
        none)
    | none => (s, none)
  | .editSave proc newText =>
    match s.editing.find? (fun e => e.1 = proc) with
    | some (_, key, original) =>
      ({ s with bucket := editWrite key original newText s.bucket,
                editing := s.editing.filter (fun e => e.1 ≠ proc) }, none)
    | none => (s, none)

/-- The system after the transactions `ops`, with the ids that the saves and
the daemon captures returned, in order. -/
def run : Sys → List Op → Sys × List Nat
  | s, [] => (s, [])
  | s, op :: ops =>
    let (s1, id) := step s op
    let (s2, ids) := run s1 ops
    (s2, id.toList ++ ids)

/-! ## launchTUI -/

/-- Go: `type item struct`, an entry of the interactive list. -/
structure Item where
  /-- The key of the snippet. -/
  id : String
  /-- The text, or the title of a header. -/
  text : String
  /-- The tag. -/
  tag : String
  /-- The alias. -/
  aliasStr : String
  /-- The pinned flag. -/
  pin : String
  /-- The field `section` of the source: either `header` or `snippet`. -/
  kind : String
deriving DecidableEq, Repr

/-- The cursor loop of `launchTUI`: `pinned` and `others`; `none` is the panic
of `fields[1]` or `fields[2]` on a record of fewer than three fields. -/
def tuiScan : List Entry → List Item × List Item → Option (List Item × List Item)
  | [], acc => some acc
  | (k, v) :: rest, (pinned, others) =>
    let fields := split v
    let flag := pinnedFlag fields
    match fields[1]?, fields[2]? with
    | some tag, some aliasStr =>
      let itm : Item :=
        { id := k, text := fields.headD "", tag := tag, aliasStr := aliasStr, pin := flag,
          kind := "snippet" }
      if flag = "true" then tuiScan rest (pinned ++ [itm], others)
      else tuiScan rest (pinned, others ++ [itm])
    | _, _ => none

/-- Go: the items `launchTUI` hands to the list program: a header and the
pinned snippets, then a header and the others. -/
def launchTUI (b : Bucket) : Option (List Item) :=
  match tuiScan b.entries ([], []) with
  | none => none
  | some (pinned, others) =>
    let top : List Item :=
      if pinned.length > 0 then
        { id := "", text := "📌 Pinned", tag := "", aliasStr := "", pin := "",
          kind := "header" } :: pinned
      else []
    let bottom : List Item :=
      if others.length > 0 then
        { id := "", text := "Others", tag := "", aliasStr := "", pin := "",
          kind := "header" } :: others
      else []
    some (top ++ bottom)

/-! ## showStats -/

/-- The variables that the loop of `showStats` maintains.  The counters of
records are natural numbers (they are bounded by the number of records); the
use count is a Go `int`. -/
structure Stats where
  /-- The number of records. -/
  total : Nat
  /-- The map `tagCount`, as the tags in the order of their first occurrence. -/
  tagCount : List (String × Nat)
  /-- The line `[id] text` of the most used snippet, empty when there is none. -/
  topSnippet : String
  /-- The use count of the most used snippet. -/
  maxCount : Int
  /-- The tag with the most records, empty when there is none. -/
  topTag : String
  /-- The number of records of `topTag`. -/
  maxTagCount : Nat
deriving DecidableEq, Repr

/-- Go: `tagCount[tag]`, zero for a tag that is not in the map. -/
def tagGet (m : List (String × Nat)) (tag : String) : Nat :=
  match m with
  | [] => 0
  | (t, c) :: rest => if t = tag then c else tagGet rest tag

/-- Go: `tagCount[tag]++`. -/
def tagBump (m : List (String × Nat)) (tag : String) : List (String × Nat) :=
  match m with
  | [] => [(tag, 1)]
  | (t, c) :: rest => if t = tag then (t, c + 1) :: rest else (t, c) :: tagBump rest tag

/-- The use count as `showStats` reads it:
`count := 0; if len(fields) > 4 { fmt.Sscanf(fields[4], "%d", &count) }`. -/
def statsCount (fields : List String) : Int :=
  if fields.length > 4 then sscanfInt (fields.getD 4 "") else 0

/-- The cursor loop of `showStats` over the entries still to visit. -/
def statsScan : List Entry → Stats → Stats
  | [], st => st
  | (k, v) :: rest, st =>
    let fields := split v
    let st1 := { st with total := st.total + 1 }
    let tag := if fields.length > 1 ∧ fields.getD 1 "" ≠ "" then fields.getD 1 "" else ""
    let count := statsCount fields
    let st2 :=
      if tag ≠ "" then
        let m := tagBump st1.tagCount tag
        if tagGet m tag > st1.maxTagCount then
          { st1 with tagCount := m, maxTagCount := tagGet m tag, topTag := tag }
        else { st1 with tagCount := m }
      else st1
    let st3 :=
      if count > st2.maxCount then
        { st2 with maxCount := count, topSnippet := "[" ++ k ++ "] " ++ fields.headD "" }
      else st2
    statsScan rest st3

/-- Go: the read transaction of `showStats()`. -/
def showStats (b : Bucket) : Stats :=
  statsScan b.entries
    { total := 0, tagCount := [], topSnippet := "", maxCount := 0, topTag := "",
      maxTagCount := 0 }

/-! ## Successive saves -/

/-- The bucket after one `grb save` for each `(text, tag, alias, now)` of the
list, in order. -/
def saveAll : List (String × String × String × Int) → Bucket → Bucket
  | [], b => b
  | (text, tag, aliasStr, now) :: rest, b => saveAll rest (saveSnippet text tag aliasStr now b).2

/-! ## Looking a snippet up -/

/-- The entry at which the loops of `copySnippet` and `pinSnippet` stop: the
first one with `id == idOrAlias || alias == idOrAlias`, the alias read with its
display default. -/
def lookupShown (idOrAlias : String) : List Entry → Option Entry
  | [] => none
  | (k, v) :: rest =>
    if k = idOrAlias ∨ shown (split v) 2 = idOrAlias then some (k, v)
    else lookupShown idOrAlias rest

/-- The entry at which the loops of `updateAlias` and `deleteSnippet` stop: the
first one with `id == idOrAlias || fields[2] == idOrAlias`; the outer `none` is
the panic on an entry without `fields[2]`. -/
def lookupStored (idOrAlias : String) : List Entry → Option (Option Entry)
  | [] => some none
  | (k, v) :: rest =>
    match (split v)[2]? with
    | none => none
    | some aliasStr =>
      if k = idOrAlias ∨ aliasStr = idOrAlias then some (some (k, v))
      else lookupStored idOrAlias rest

/-- The use count of a stored record as `copySnippet` decodes it: the scanned
fifth field, `0` when the field is missing or is not a number. -/
def useCountOf (v : String) : Int :=
  sscanfInt (useCountField (split v))

/-- The condition under which the loop of `clearSnippets` deletes an entry
with the stored value `v`:
`all || (tag != "" && t == tag) || (unpinned && pinned == "false")`. -/
def clearTest (all : Bool) (tag : String) (unpinned : Bool) (v : String) : Bool :=
  decide (all = true ∨ (tag ≠ "" ∧ field v 1 = tag) ∨ (unpinned = true ∧ field v 3 = "false"))

/-! ## Issued ids -/

/-- The key of an id that the sequence has issued so far. -/
def IssuedKey (sequence : Nat) (k : String) : Prop :=
  ∃ i, 1 ≤ i ∧ i ≤ sequence ∧ k = toString i

/-! ## Stores used as examples -/

/-- The store after `grb save a --alias 2` and `grb save b --tag t --alias x`:
the alias of record `1` is the id of record `2`. -/
def shadowStore : Bucket :=
  { sequence := 2, entries := [("1", "a||2|false|0|1"), ("2", "b|t|x|false|0|2")] }

/-- The store after `grb save "buy milk" --tag errand --alias milk` and
`grb save eggs --tag errand`. -/
def milkStore : Bucket :=
  { sequence := 2,
    entries := [("1", "buy milk|errand|milk|false|0|100"), ("2", "eggs|errand||false|0|101")] }

/-- The store after `grb save hello`: neither tag nor alias. -/
def helloStore : Bucket :=
  { sequence := 1, entries := [("1", "hello|||false|0|100")] }

/-- A store with one record of a single field, as a store written by
something other than this program may hold. -/
def shortStore : Bucket :=
  { sequence := 1, entries := [("1", "hello")] }

/-- A store with one record of four fields: text, tag, alias and pinned flag,
without use count and timestamp. -/
def fourFieldStore : Bucket :=
  { sequence := 1, entries := [("1", "hello|t|a|true")] }

/-! # Theorems -/

/-! ## Splitting and joining -/

theorem splitChars_ne_nil (cs : List Char) : splitChars cs ≠ [] := by
  cases cs with
  | nil => simp [splitChars]
  | cons c cs =>
    simp only [splitChars]
    split
    · simp
    · split <;> simp

theorem splitChars_of_not_mem (a : List Char) (h : '|' ∉ a) : splitChars a = [a] := by
  induction a with
  | nil => rfl
  | cons c cs ih =>
    have hc : c ≠ '|' := fun e => h (by simp [e])
    have hcs : '|' ∉ cs := fun e => h (by simp [e])
    simp [splitChars, hc, ih hcs]

theorem splitChars_append_sep (a r : List Char) (h : '|' ∉ a) :
    splitChars (a ++ '|' :: r) = a :: splitChars r := by
  induction a with
  | nil => simp [splitChars]
  | cons c cs ih =>
    have hc : c ≠ '|' := fun e => h (by simp [e])
    have hcs : '|' ∉ cs := fun e => h (by simp [e])
    simp [splitChars, hc, ih hcs]

theorem not_mem_of_mem_splitChars (cs f : List Char) (h : f ∈ splitChars cs) : '|' ∉ f := by
  induction cs generalizing f with
  | nil => simp [splitChars] at h; simp [h]
  | cons c cs ih =>
    simp only [splitChars] at h
    split at h
    · rcases List.mem_cons.1 h with h | h
      · simp [h]
      · exact ih f h
    · rename_i hc
      split at h
      · rename_i e; exact absurd e (splitChars_ne_nil cs)
      · rename_i g gs e
        rcases List.mem_cons.1 h with h | h
        · subst h
          have hg : '|' ∉ g := ih g (by simp [e])
          intro hm
          rcases List.mem_cons.1 hm with hm | hm
          · exact hc hm.symm
          · exact hg hm
        · exact ih f (by simp [e, h])

/-- Characters of a decimal rendering are digits. -/
theorem digitChar_isDigit (d : Nat) (h : d < 10) : (Nat.digitChar d).isDigit = true := by
  interval_cases d <;> decide

theorem toDigitsCore_isDigit (fuel n : Nat) (acc : List Char)
    (hacc : ∀ c ∈ acc, c.isDigit = true) :
    ∀ c ∈ Nat.toDigitsCore 10 fuel n acc, c.isDigit = true := by
  induction fuel generalizing n acc with
  | zero => simpa [Nat.toDigitsCore] using hacc
  | succ fuel ih =>
    have hd : (Nat.digitChar (n % 10)).isDigit = true :=
      digitChar_isDigit _ (Nat.mod_lt _ (by decide))
    have hacc2 : ∀ c ∈ Nat.digitChar (n % 10) :: acc, c.isDigit = true := by
      intro c hc
      rcases List.mem_cons.1 hc with hc | hc
      · rw [hc]; exact hd
      · exact hacc c hc
    simp only [Nat.toDigitsCore]
    split
    · exact hacc2
    · exact ih _ _ hacc2

theorem natRepr_isDigit (n : Nat) : ∀ c ∈ (toString n).data, c.isDigit = true := by
  show ∀ c ∈ (Nat.repr n).data, c.isDigit = true
  simp only [Nat.repr, Nat.toDigits, List.asString]
  exact toDigitsCore_isDigit _ _ _ (by simp)

theorem natRepr_ne_nil (n : Nat) : (toString n).data ≠ [] := by
  show (Nat.repr n).data ≠ []
  simp only [Nat.repr, Nat.toDigits, List.asString, Nat.toDigitsCore]
  split
  · simp
  · intro h
    have hl := Nat.toDigitsCore_lens_eq 10 n (n / 10) (Nat.digitChar (n % 10)) []
    rw [h] at hl
    simp at hl


theorem bar_not_mem_natRepr (n : Nat) : '|' ∉ (toString n).data := by
  intro h
  have := natRepr_isDigit n _ h
  exact absurd this (by decide)

theorem bar_not_mem_intRepr (z : Int) : '|' ∉ (toString z).data := by
  cases z with
  | ofNat m => exact bar_not_mem_natRepr m
  | negSucc m =>
    show '|' ∉ ("-" ++ toString (m + 1)).data
    rw [String.data_append]
    intro h
    rcases List.mem_append.1 h with h | h
    · exact absurd h (by decide)
    · exact bar_not_mem_natRepr _ h

theorem natRepr_ne_dash (n : Nat) : toString n ≠ "-" := by
  intro h
  have hd := natRepr_isDigit n '-' (by rw [h]; decide)
  exact absurd hd (by decide)

/-! ## The key order -/

theorem lessChars_total (a b : List Char) (hne : a ≠ b) (h : lessChars b a = false) :
    lessChars a b = true := by
  induction a generalizing b with
  | nil =>
    cases b with
    | nil => exact absurd rfl hne
    | cons y ys => simp [lessChars]
  | cons x xs ih =>
    cases b with
    | nil => simp [lessChars] at h
    | cons y ys =>
      simp only [lessChars] at h ⊢
      by_cases h1 : x.toNat < y.toNat
      · simp [h1]
      · by_cases h2 : y.toNat < x.toNat
        · simp [h2] at h
        · have hxy : x = y := by
            apply Char.ext
            apply UInt32.ext
            have : x.toNat = y.toNat := by omega
            exact this
          subst hxy
          simp only [h1, if_false] at h ⊢
          exact ih ys (fun e => hne (by rw [e])) h

theorem keyLess_total (a b : String) (hne : a ≠ b) (h : keyLess b a = false) :
    keyLess a b = true := by
  apply lessChars_total _ _ _ h
  intro e
  exact hne (String.ext e)

theorem lessChars_irrefl (a : List Char) : lessChars a a = false := by
  induction a with
  | nil => rfl
  | cons x xs ih => simp [lessChars, ih]

theorem lessChars_asymm (a b : List Char) (h : lessChars a b = true) :
    lessChars b a = false := by
  induction a generalizing b with
  | nil =>
    cases b with
    | nil => rfl
    | cons y ys => rfl
  | cons x xs ih =>
    cases b with
    | nil => simp [lessChars] at h
    | cons y ys =>
      simp only [lessChars] at h ⊢
      by_cases h1 : x.toNat < y.toNat
      · have h2 : ¬ y.toNat < x.toNat := by omega
        simp [h1, h2]
      · by_cases h2 : y.toNat < x.toNat
        · simp [h1, h2] at h
        · simp only [h1, h2, if_false] at h ⊢
          exact ih ys h

theorem keyLess_irrefl (a : String) : keyLess a a = false :=
  lessChars_irrefl a.data

theorem keyLess_asymm (a b : String) (h : keyLess a b = true) : keyLess b a = false :=
  lessChars_asymm _ _ h

theorem keyLess_ne (a b : String) (h : keyLess a b = true) : a ≠ b := by
  intro e
  subst e
  rw [keyLess_irrefl] at h
  exact absurd h (by decide)


/-! ## Records written by the program -/

theorem split_of_not_mem (a : String) (h : '|' ∉ a.data) : split a = [a] := by
  simp [split, splitChars_of_not_mem a.data h]

theorem split_sprintf6 (a b c d e f : String) (ha : '|' ∉ a.data) (hb : '|' ∉ b.data)
    (hc : '|' ∉ c.data) (hd : '|' ∉ d.data) (he : '|' ∉ e.data) :
    split (sprintf6 a b c d e f) = a :: b :: c :: d :: e :: split f := by
  have hbar : ("|" : String).data = ['|'] := rfl
  simp only [split, sprintf6, String.data_append, hbar, List.append_assoc, List.singleton_append,
    List.cons_append, List.nil_append]
  rw [splitChars_append_sep _ _ ha, splitChars_append_sep _ _ hb, splitChars_append_sep _ _ hc,
    splitChars_append_sep _ _ hd, splitChars_append_sep _ _ he]
  simp

theorem bar_not_mem_of_mem_split (v f : String) (h : f ∈ split v) : '|' ∉ f.data := by
  simp only [split, List.mem_map] at h
  obtain ⟨cs, hcs, rfl⟩ := h
  exact not_mem_of_mem_splitChars _ _ hcs

/-! ## Writing and scanning -/

theorem shown_ne_of_stored (fields : List String) (a x : String) (h : fields[2]? = some a)
    (hax : a ≠ x) (hx : x ≠ "-") : shown fields 2 ≠ x := by
  have hg : fields.getD 2 "" = a := by simp [List.getD, h]
  unfold shown
  rw [hg]
  split
  · exact hax
  · exact fun e => hx e.symm

theorem lookupShown_putEntries (k v : String) (es : List Entry)
    (h : ∀ e ∈ es, keyLess e.1 k = true → shown (split e.2) 2 ≠ k) :
    lookupShown k (putEntries k v es) = some (k, v) := by
  induction es with
  | nil => simp [putEntries, lookupShown]
  | cons e es ih =>
    obtain ⟨k1, v1⟩ := e
    simp only [putEntries]
    by_cases h1 : k1 = k
    · simp [h1, lookupShown]
    · by_cases h2 : keyLess k k1 = true
      · simp [h1, h2, lookupShown]
      · have h3 : keyLess k1 k = true := keyLess_total _ _ h1 (by simpa using h2)
        have h4 := h (k1, v1) (by simp) h3
        simp only [h1, h2, if_false]
        simp only [lookupShown]
        rw [if_neg (by simp only [not_or]; exact ⟨h1, h4⟩)]
        exact ih (fun e he => h e (List.mem_cons_of_mem _ he))

theorem lookupStored_putEntries (k v : String) (es : List Entry) (hv : ∃ a, (split v)[2]? = some a)
    (h : ∀ e ∈ es, keyLess e.1 k = true → ∃ a, (split e.2)[2]? = some a ∧ a ≠ k) :
    lookupStored k (putEntries k v es) = some (some (k, v)) := by
  obtain ⟨a0, ha0⟩ := hv
  induction es with
  | nil => simp [putEntries, lookupStored, ha0]
  | cons e es ih =>
    obtain ⟨k1, v1⟩ := e
    simp only [putEntries]
    by_cases h1 : k1 = k
    · simp [h1, lookupStored, ha0]
    · by_cases h2 : keyLess k k1 = true
      · simp [h1, h2, lookupStored, ha0]
      · have h3 : keyLess k1 k = true := keyLess_total _ _ h1 (by simpa using h2)
        obtain ⟨a, ha, hak⟩ := h (k1, v1) (by simp) h3
        simp only [h1, h2, if_false]
        simp only [lookupStored, ha]
        rw [if_neg (by simp only [not_or]; exact ⟨h1, hak⟩)]
        exact ih (fun e he => h e (List.mem_cons_of_mem _ he))

theorem get_putEntries_self (k v : String) (es : List Entry) :
    (putEntries k v es).find? (fun e => e.1 == k) = some (k, v) := by
  induction es with
  | nil => simp [putEntries]
  | cons e es ih =>
    obtain ⟨k1, v1⟩ := e
    simp only [putEntries]
    by_cases h1 : k1 = k
    · simp [h1]
    · by_cases h2 : keyLess k k1 = true
      · simp [h1, h2]
      · simp [h1, h2, ih]

/-- C1 (amended). After `saveSnippet` stored `text`, `tag` and `alias` (none
with a `|`) and returned the id `id`, the scans of copy/pin and of rename/delete
for that id stop at the new record, whose fields are exactly the text, the tag,
the alias, `false` and `0`, provided every record that the scan meets before
it has an alias field other than that id. -/
theorem save_then_lookup (b : Bucket) (text tag aliasStr : String) (now : Int)
    (id : Nat) (b1 : Bucket) (hsave : saveSnippet text tag aliasStr now b = (id, b1))
    (ht : '|' ∉ text.data) (hg : '|' ∉ tag.data) (ha : '|' ∉ aliasStr.data)
    (hfree : ∀ e ∈ b.entries, keyLess e.1 (toString id) = true →
        ∃ a, (split e.2)[2]? = some a ∧ a ≠ toString id) :
    ∃ v, lookupShown (toString id) b1.entries = some (toString id, v)
      ∧ lookupStored (toString id) b1.entries = some (some (toString id, v))
      ∧ b1.get (toString id) = some v
      ∧ split v = [text, tag, aliasStr, "false", "0", toString now] := by
  have hsplit : split (sprintf6 text tag aliasStr "false" "0" (toString now))
      = [text, tag, aliasStr, "false", "0", toString now] := by
    rw [split_sprintf6 _ _ _ _ _ _ ht hg ha (by decide) (by decide),
      split_of_not_mem _ (bar_not_mem_intRepr now)]
  simp only [saveSnippet, Bucket.nextSequence, Bucket.put, Prod.mk.injEq] at hsave
  obtain ⟨hid, hb1⟩ := hsave
  subst hb1
  subst hid
  refine ⟨sprintf6 text tag aliasStr "false" "0" (toString now), ?_, ?_, ?_, hsplit⟩
  · apply lookupShown_putEntries
    intro e he hlt
    obtain ⟨a, h2, hne⟩ := hfree e he hlt
    exact shown_ne_of_stored _ _ _ h2 hne (natRepr_ne_dash _)
  · apply lookupStored_putEntries
    · rw [hsplit]; exact ⟨aliasStr, rfl⟩
    · exact hfree
  · simp [Bucket.get, get_putEntries_self]

theorem save_then_lookup_witness :
    ∃ v, lookupShown (toString 2) [("1", "a||milk|false|0|1"), ("2", "b|t|x|false|0|7")]
          = some (toString 2, v)
      ∧ lookupStored (toString 2) [("1", "a||milk|false|0|1"), ("2", "b|t|x|false|0|7")]
          = some (some (toString 2, v))
      ∧ Bucket.get ⟨2, [("1", "a||milk|false|0|1"), ("2", "b|t|x|false|0|7")]⟩ (toString 2)
          = some v
      ∧ split v = ["b", "t", "x", "false", "0", toString (7 : Int)] :=
  save_then_lookup ⟨1, [("1", "a||milk|false|0|1")]⟩ "b" "t" "x" 7 2
    ⟨2, [("1", "a||milk|false|0|1"), ("2", "b|t|x|false|0|7")]⟩ (by decide)
    (by decide) (by decide) (by decide) (by decide)

/-- C1 as stated fails: with a record `1` whose alias is `2` in the store, the
save that returns id `2` is followed by a lookup of `2` that stops at record
`1`, whose text is not the saved one. -/
theorem save_then_lookup_shadowed :
    saveSnippet "a" "" "2" 1 Bucket.empty = (1, ⟨1, [("1", "a||2|false|0|1")]⟩)
      ∧ saveSnippet "b" "t" "x" 2 ⟨1, [("1", "a||2|false|0|1")]⟩
          = (2, ⟨2, [("1", "a||2|false|0|1"), ("2", "b|t|x|false|0|2")]⟩)
      ∧ lookupShown "2" [("1", "a||2|false|0|1"), ("2", "b|t|x|false|0|2")]
          = some ("1", "a||2|false|0|1")
      ∧ lookupStored "2" [("1", "a||2|false|0|1"), ("2", "b|t|x|false|0|2")]
          = some (some ("1", "a||2|false|0|1"))
      ∧ split "a||2|false|0|1" = ["a", "", "2", "false", "0", "1"] := by
  decide


/-! ## The sequence counter -/

theorem copyScan_sequence (x : String) (now : Int) (b : Bucket) (es : List Entry)
    (r : Bool × Bucket) (h : copyScan x now b es = some r) : r.2.sequence = b.sequence := by
  induction es with
  | nil =>
    simp only [copyScan, Option.some.injEq] at h
    rw [← h]
  | cons e es ih =>
    obtain ⟨k, v⟩ := e
    simp only [copyScan] at h
    split at h
    · split at h
      · exact absurd h (by simp)
      · simp only [Option.some.injEq] at h
        rw [← h]; rfl
    · exact ih h

theorem pinScan_sequence (x : String) (now : Int) (b : Bucket) (es : List Entry)
    (r : Bool × Bucket) (h : pinScan x now b es = some r) : r.2.sequence = b.sequence := by
  induction es with
  | nil =>
    simp only [pinScan, Option.some.injEq] at h
    rw [← h]
  | cons e es ih =>
    obtain ⟨k, v⟩ := e
    simp only [pinScan] at h
    split at h
    · split at h
      · exact absurd h (by simp)
      · simp only [Option.some.injEq] at h
        rw [← h]; rfl
    · exact ih h

theorem aliasScan_sequence (x a : String) (b : Bucket) (es : List Entry)
    (r : Bool × Bucket) (h : aliasScan x a b es = some r) : r.2.sequence = b.sequence := by
  induction es with
  | nil =>
    simp only [aliasScan, Option.some.injEq] at h
    rw [← h]
  | cons e es ih =>
    obtain ⟨k, v⟩ := e
    simp only [aliasScan] at h
    split at h
    · exact absurd h (by simp)
    · split at h
      · simp only [Option.some.injEq] at h
        rw [← h]; rfl
      · exact ih h

theorem deleteScan_sequence (x : String) (b : Bucket) (es : List Entry)
    (r : Bool × Bucket) (h : deleteScan x b es = some r) : r.2.sequence = b.sequence := by
  induction es with
  | nil =>
    simp only [deleteScan, Option.some.injEq] at h
    rw [← h]
  | cons e es ih =>
    obtain ⟨k, v⟩ := e
    simp only [deleteScan] at h
    split at h
    · exact absurd h (by simp)
    · split at h
      · simp only [Option.some.injEq] at h
        rw [← h]; rfl
      · exact ih h

theorem clearScan_sequence (all : Bool) (tag : String) (unpinned : Bool) (es : List Entry)
    (d : Nat) (b : Bucket) (r : Nat × Bucket) (h : clearScan all tag unpinned es d b = some r) :
    r.2.sequence = b.sequence := by
  induction es generalizing d b with
  | nil =>
    simp only [clearScan, Option.some.injEq] at h
    rw [← h]
  | cons e es ih =>
    obtain ⟨k, v⟩ := e
    simp only [clearScan] at h
    split at h
    · split at h
      · exact (ih _ _ h).trans rfl
      · exact ih _ _ h
    · exact absurd h (by simp)

theorem committed_sequence {α : Type} (b : Bucket) (r : Option (α × Bucket))
    (h : ∀ p, r = some p → p.2.sequence = b.sequence) : (committed b r).sequence = b.sequence := by
  cases r with
  | none => rfl
  | some p => exact h p rfl

/-- A transaction either leaves the counter alone and returns no id, or moves
it to its successor (modulo `2^64`) and returns that. -/
theorem step_sequence (s : Sys) (op : Op) :
    ((step s op).2 = none ∧ (step s op).1.bucket.sequence = s.bucket.sequence)
      ∨ ((step s op).2 = some ((s.bucket.sequence + 1) % 2 ^ 64)
          ∧ (step s op).1.bucket.sequence = (s.bucket.sequence + 1) % 2 ^ 64) := by
  cases op with
  | save text tag a now => right; exact ⟨rfl, rfl⟩
  | daemon text now =>
    simp only [step, daemonStep]
    split
    · right; exact ⟨rfl, rfl⟩
    · left; exact ⟨rfl, rfl⟩
  | copy x now =>
    left; refine ⟨rfl, committed_sequence _ _ ?_⟩
    intro p hp; exact copyScan_sequence _ _ _ _ _ hp
  | pin x now =>
    left; refine ⟨rfl, committed_sequence _ _ ?_⟩
    intro p hp; exact pinScan_sequence _ _ _ _ _ hp
  | rename x a =>
    left; refine ⟨rfl, committed_sequence _ _ ?_⟩
    intro p hp; exact aliasScan_sequence _ _ _ _ _ hp
  | delete x =>
    left; refine ⟨rfl, committed_sequence _ _ ?_⟩
    intro p hp; exact deleteScan_sequence _ _ _ _ hp
  | clear all tag unpinned =>
    left; refine ⟨rfl, committed_sequence _ _ ?_⟩
    intro p hp; exact clearScan_sequence _ _ _ _ _ _ _ hp
  | editRead proc x =>
    left
    simp only [step]
    split <;> exact ⟨rfl, rfl⟩
  | editSave proc newText =>
    left
    simp only [step]
    split <;> exact ⟨rfl, rfl⟩

theorem run_ids (ops : List Op) (s : Sys) (hb : s.bucket.sequence + ops.length < 2 ^ 64) :
    (run s ops).2 = List.range' (s.bucket.sequence + 1) (run s ops).2.length
      ∧ (run s ops).1.bucket.sequence = s.bucket.sequence + (run s ops).2.length := by
  induction ops generalizing s with
  | nil => simp [run]
  | cons op ops ih =>
    simp only [List.length_cons] at hb
    simp only [run]
    rcases step_sequence s op with ⟨h1, h2⟩ | ⟨h1, h2⟩
    · have := ih (step s op).1 (by rw [h2]; omega)
      rw [h2] at this
      simpa [h1] using this
    · have hm : (s.bucket.sequence + 1) % 2 ^ 64 = s.bucket.sequence + 1 :=
        Nat.mod_eq_of_lt (by omega)
      rw [hm] at h1 h2
      have := ih (step s op).1 (by rw [h2]; omega)
      rw [h2] at this
      obtain ⟨t1, t2⟩ := this
      constructor
      · simp only [h1, Option.toList, List.singleton_append, List.length_cons, List.range']
        rw [← t1]
      · simp only [h1, Option.toList, List.singleton_append, List.length_cons]
        rw [t2]; omega

/-- C2. From the empty store, through any run of saves, daemon iterations,
copies, pins, renames, deletes, clears and both halves of edits (fewer than
`2^64` of them, the range of the counter), the ids returned by the saves,
those of the daemon included, are `1, 2, 3, …` in this order: strictly
increasing from `1` and never repeated, whatever was deleted or cleared in
between; and save, save, delete 1, save returns 1, 2, 3. -/
theorem save_ids_increasing (ops : List Op) (hlen : ops.length < 2 ^ 64) :
    (run Sys.init ops).2 = List.range' 1 (run Sys.init ops).2.length
      ∧ (run Sys.init ops).2.Pairwise (fun a b => a < b)
      ∧ (run Sys.init ops).2.Nodup
      ∧ ∀ (t1 g1 a1 t2 g2 a2 t3 g3 a3 : String) (n1 n2 n3 : Int),
          (run Sys.init [.save t1 g1 a1 n1, .save t2 g2 a2 n2, .delete "1",
            .save t3 g3 a3 n3]).2 = [1, 2, 3] := by
  have h := (run_ids ops Sys.init (by simpa [Sys.init, Bucket.empty] using hlen)).1
  simp only [Sys.init, Bucket.empty, Nat.zero_add] at h
  have hp : (run Sys.init ops).2.Pairwise (fun a b => a < b) := by
    simp only [Sys.init, Bucket.empty]
    rw [h]
    exact List.pairwise_lt_range' 1 _
  refine ⟨h, hp, ?_, ?_⟩
  · exact hp.imp (fun hab => Nat.ne_of_lt hab)
  · intro t1 g1 a1 t2 g2 a2 t3 g3 a3 n1 n2 n3
    have h3 := (run_ids [.save t1 g1 a1 n1, .save t2 g2 a2 n2, .delete "1", .save t3 g3 a3 n3]
      Sys.init (by simp [Sys.init, Bucket.empty])).1
    have hl : (run Sys.init [.save t1 g1 a1 n1, .save t2 g2 a2 n2, .delete "1",
        .save t3 g3 a3 n3]).2.length = 3 := rfl
    rw [hl] at h3
    exact h3

theorem save_ids_increasing_witness :
    (run Sys.init [.save "a" "" "" 1, .daemon "b" 2, .delete "1", .save "c" "" "" 3]).2
        = List.range' 1
          (run Sys.init [.save "a" "" "" 1, .daemon "b" 2, .delete "1", .save "c" "" "" 3]).2.length
      ∧ (run Sys.init [.save "a" "" "" 1, .daemon "b" 2, .delete "1",
          .save "c" "" "" 3]).2.Pairwise (fun a b => a < b)
      ∧ (run Sys.init [.save "a" "" "" 1, .daemon "b" 2, .delete "1", .save "c" "" "" 3]).2.Nodup
      ∧ ∀ (t1 g1 a1 t2 g2 a2 t3 g3 a3 : String) (n1 n2 n3 : Int),
          (run Sys.init [.save t1 g1 a1 n1, .save t2 g2 a2 n2, .delete "1",
            .save t3 g3 a3 n3]).2 = [1, 2, 3] :=
  save_ids_increasing [.save "a" "" "" 1, .daemon "b" 2, .delete "1", .save "c" "" "" 3]
    (by decide)


/-! ## The scans as searches -/

theorem copyScan_eq (x : String) (now : Int) (b : Bucket) (es : List Entry) :
    copyScan x now b es =
      match lookupShown x es with
      | none => some (false, b)
      | some e => (copyValue (split e.2) now).map (fun nv => (true, b.put e.1 nv)) := by
  induction es with
  | nil => rfl
  | cons e es ih =>
    obtain ⟨k, v⟩ := e
    simp only [copyScan, lookupShown]
    split
    · show (match copyValue (split v) now with
        | none => none
        | some newVal => some (true, b.put k newVal))
        = Option.map (fun nv => (true, b.put k nv)) (copyValue (split v) now)
      cases copyValue (split v) now <;> rfl
    · exact ih

theorem pinScan_eq (x : String) (now : Int) (b : Bucket) (es : List Entry) :
    pinScan x now b es =
      match lookupShown x es with
      | none => some (false, b)
      | some e => (pinValue (split e.2) now).map (fun nv => (true, b.put e.1 nv)) := by
  induction es with
  | nil => rfl
  | cons e es ih =>
    obtain ⟨k, v⟩ := e
    simp only [pinScan, lookupShown]
    split
    · show (match pinValue (split v) now with
        | none => none
        | some newVal => some (true, b.put k newVal))
        = Option.map (fun nv => (true, b.put k nv)) (pinValue (split v) now)
      cases pinValue (split v) now <;> rfl
    · exact ih

theorem aliasScan_eq (x a : String) (b : Bucket) (es : List Entry) :
    aliasScan x a b es =
      match lookupStored x es with
      | none => none
      | some none => some (false, b)
      | some (some e) => some (true, b.put e.1 (join ((split e.2).set 2 a))) := by
  induction es with
  | nil => rfl
  | cons e es ih =>
    obtain ⟨k, v⟩ := e
    simp only [aliasScan, lookupStored]
    split
    · rfl
    · split
      · rfl
      · exact ih

theorem deleteScan_eq (x : String) (b : Bucket) (es : List Entry) :
    deleteScan x b es =
      match lookupStored x es with
      | none => none
      | some none => some (false, b)
      | some (some e) => some (true, b.delete e.1) := by
  induction es with
  | nil => rfl
  | cons e es ih =>
    obtain ⟨k, v⟩ := e
    simp only [deleteScan, lookupStored]
    split
    · rfl
    · split
      · rfl
      · exact ih

theorem getD_of_length_le (fields : List String) (i : Nat) (h : fields.length ≤ i) :
    fields.getD i "" = "" := by
  simp [List.getD, List.getElem?_eq_none h]

theorem getElem?_of_lt_length (fields : List String) (i : Nat) (h : i < fields.length) :
    fields[i]? = some (fields.getD i "") := by
  simp [List.getD, List.getElem?_eq_getElem h]

theorem shown_eq_iff (fields : List String) (x : String) (hx : x ≠ "") (hd : x ≠ "-") :
    shown fields 2 = x ↔ fields.getD 2 "" = x := by
  unfold shown
  split
  · exact Iff.rfl
  · rename_i h
    constructor
    · intro e; exact absurd e.symm hd
    · intro e
      by_cases hl : fields.length > 2
      · have : fields.getD 2 "" = "" := by
          by_contra hne
          exact h ⟨hl, hne⟩
        rw [this] at e
        exact absurd e.symm hx
      · rw [getD_of_length_le fields 2 (by omega)] at e
        exact absurd e.symm hx

theorem lookupShown_eq_find (x : String) (hx : x ≠ "") (hd : x ≠ "-") (es : List Entry) :
    lookupShown x es = es.find? (fun e => decide (e.1 = x ∨ field e.2 2 = x)) := by
  induction es with
  | nil => rfl
  | cons e es ih =>
    obtain ⟨k, v⟩ := e
    simp only [lookupShown]
    by_cases h : k = x ∨ shown (split v) 2 = x
    · have h2 : k = x ∨ field v 2 = x := h.imp id (shown_eq_iff _ _ hx hd).1
      rw [if_pos h, List.find?_cons_of_pos _ (by exact decide_eq_true h2)]
    · have h2 : ¬ (k = x ∨ field v 2 = x) :=
        fun h3 => h (h3.imp id (shown_eq_iff _ _ hx hd).2)
      rw [if_neg h, List.find?_cons_of_neg _ (by simpa using h2)]
      exact ih

theorem lookupStored_eq_find (x : String) (es : List Entry)
    (hwf : ∀ e ∈ es, 3 ≤ (split e.2).length) :
    lookupStored x es = some (es.find? (fun e => decide (e.1 = x ∨ field e.2 2 = x))) := by
  induction es with
  | nil => rfl
  | cons e es ih =>
    obtain ⟨k, v⟩ := e
    have hl : (split v)[2]? = some (field v 2) :=
      getElem?_of_lt_length _ _ (by have := hwf (k, v) (by simp); simpa using this)
    simp only [lookupStored, hl]
    by_cases h : k = x ∨ field v 2 = x
    · rw [if_pos h, List.find?_cons_of_pos _ (by exact decide_eq_true h)]
    · rw [if_neg h, List.find?_cons_of_neg _ (by simpa using h)]
      exact ih (fun e he => hwf e (List.mem_cons_of_mem _ he))

theorem copyValue_isSome (fields : List String) (now : Int) (h : 4 ≤ fields.length) :
    ∃ nv, copyValue fields now = some nv := by
  simp only [copyValue, getElem?_of_lt_length fields 3 (by omega)]
  exact ⟨_, rfl⟩

theorem pinValue_isSome (fields : List String) (now : Int) (h : 5 ≤ fields.length) :
    ∃ nv, pinValue fields now = some nv := by
  simp only [pinValue, getElem?_of_lt_length fields 4 (by omega)]
  exact ⟨_, rfl⟩

/-- C3 (amended). On a store whose records have at least five fields, and for
an argument `x` other than the empty string and `-`, copy, pin, rename and
delete all act on the first record in scan order whose id equals `x` or whose
stored alias equals `x` (one pass, no preference for the id); when there is no
such record, each reports not-found and writes nothing. -/
theorem acts_on_first_match (b : Bucket) (x newAlias : String) (now : Int)
    (hwf : ∀ e ∈ b.entries, 5 ≤ (split e.2).length) (hx : x ≠ "") (hd : x ≠ "-") :
    match b.entries.find? (fun e => decide (e.1 = x ∨ field e.2 2 = x)) with
    | none =>
      copySnippet x now b = some (false, b) ∧ pinSnippet x now b = some (false, b)
        ∧ updateAlias x newAlias b = some (false, b) ∧ deleteSnippet x b = some (false, b)
    | some e =>
      (∃ nv, copyValue (split e.2) now = some nv
          ∧ copySnippet x now b = some (true, b.put e.1 nv))
        ∧ (∃ nv, pinValue (split e.2) now = some nv
          ∧ pinSnippet x now b = some (true, b.put e.1 nv))
        ∧ updateAlias x newAlias b = some (true, b.put e.1 (join ((split e.2).set 2 newAlias)))
        ∧ deleteSnippet x b = some (true, b.delete e.1) := by
  have h1 := lookupShown_eq_find x hx hd b.entries
  have h2 := lookupStored_eq_find x b.entries (fun e he => by have := hwf e he; omega)
  have hc := copyScan_eq x now b b.entries
  have hp := pinScan_eq x now b b.entries
  have ha := aliasScan_eq x newAlias b b.entries
  have hdel := deleteScan_eq x b b.entries
  rw [h1] at hc hp
  rw [h2] at ha hdel
  unfold copySnippet pinSnippet updateAlias deleteSnippet
  cases hf : b.entries.find? (fun e => decide (e.1 = x ∨ field e.2 2 = x)) with
  | none =>
    rw [hf] at hc hp ha hdel
    exact ⟨hc, hp, ha, hdel⟩
  | some e =>
    rw [hf] at hc hp ha hdel
    have hmem : e ∈ b.entries := List.mem_of_find?_eq_some hf
    obtain ⟨nv1, hv1⟩ := copyValue_isSome (split e.2) now (by have := hwf e hmem; omega)
    obtain ⟨nv2, hv2⟩ := pinValue_isSome (split e.2) now (hwf e hmem)
    refine ⟨⟨nv1, hv1, ?_⟩, ⟨nv2, hv2, ?_⟩, ha, hdel⟩
    · rw [hc]
      show Option.map _ (copyValue (split e.2) now) = _
      rw [hv1]; rfl
    · rw [hp]
      show Option.map _ (pinValue (split e.2) now) = _
      rw [hv2]; rfl


theorem acts_on_first_match_witness :
    (∃ nv, copyValue (split "buy milk|errand|milk|false|0|100") 200 = some nv
        ∧ copySnippet "milk" 200 milkStore = some (true, milkStore.put "1" nv))
      ∧ (∃ nv, pinValue (split "buy milk|errand|milk|false|0|100") 200 = some nv
        ∧ pinSnippet "milk" 200 milkStore = some (true, milkStore.put "1" nv))
      ∧ updateAlias "milk" "dairy" milkStore
          = some (true, milkStore.put "1"
              (join ((split "buy milk|errand|milk|false|0|100").set 2 "dairy")))
      ∧ deleteSnippet "milk" milkStore = some (true, milkStore.delete "1") :=
  acts_on_first_match milkStore "milk" "dairy" 200 (by decide) (by decide) (by decide)

/-- C3 as stated fails: in `shadowStore` a record with id `2` exists, but for
the argument `2` copy, pin, rename and delete all act on record `1`, whose
alias is `2` and which the scan meets first. -/
theorem id_match_not_preferred :
    shadowStore.get "2" = some "b|t|x|false|0|2"
      ∧ copySnippet "2" 9 shadowStore
          = some (true, ⟨2, [("1", "a|-|2|false|1|9"), ("2", "b|t|x|false|0|2")]⟩)
      ∧ pinSnippet "2" 9 shadowStore
          = some (true, ⟨2, [("1", "a|-|2|true|0|9"), ("2", "b|t|x|false|0|2")]⟩)
      ∧ updateAlias "2" "new" shadowStore
          = some (true, ⟨2, [("1", "a||new|false|0|1"), ("2", "b|t|x|false|0|2")]⟩)
      ∧ deleteSnippet "2" shadowStore = some (true, ⟨2, [("2", "b|t|x|false|0|2")]⟩) := by
  decide

/-- C4, the failing input: in `helloStore` the only record has the stored
fields `hello`, empty tag and empty alias, none of which contains `-`, and yet
`searchSnippets("-")` returns it, because the test runs on the display values,
where an empty tag or alias reads `-`. -/
theorem search_dash_hits_placeholder :
    split "hello|||false|0|100" = ["hello", "", "", "false", "0", "100"]
      ∧ contains (toLower Char.toLower "hello") (toLower Char.toLower "-") = false
      ∧ contains (toLower Char.toLower "") (toLower Char.toLower "-") = false
      ∧ searchSnippets Char.toLower "-" helloStore = ([], [["1", "hello", "-", "-"]]) := by
  decide


/-! ## Fields of stored records -/

theorem bar_not_mem_getD (v : String) (i : Nat) : '|' ∉ ((split v).getD i "").data := by
  by_cases h : i < (split v).length
  · have hm : (split v).getD i "" ∈ split v := by
      have := getElem?_of_lt_length (split v) i h
      exact List.getElem?_mem this
    exact bar_not_mem_of_mem_split _ _ hm
  · rw [getD_of_length_le _ _ (by omega)]
    decide

theorem bar_not_mem_headD (v : String) : '|' ∉ ((split v).headD "").data := by
  have h := bar_not_mem_getD v 0
  cases hs : split v with
  | nil => decide
  | cons f fs =>
    rw [hs] at h
    simpa using h

theorem bar_not_mem_shown (v : String) (i : Nat) : '|' ∉ (shown (split v) i).data := by
  unfold shown
  split
  · exact bar_not_mem_getD v i
  · decide

/-! ## Integers -/

theorem wrapInt_of_range (z : Int) (h1 : - 2 ^ 63 ≤ z) (h2 : z < 2 ^ 63) : wrapInt z = z := by
  unfold wrapInt
  rw [Int.emod_eq_of_lt (by omega) (by omega)]
  omega

theorem sscanfInt_range (s : String) : - 2 ^ 63 ≤ sscanfInt s ∧ sscanfInt s < 2 ^ 63 := by
  unfold sscanfInt
  dsimp only
  split_ifs <;> first | assumption | (constructor <;> decide)

/-! ## Scanning what was printed -/

theorem isDigit_toNat (c : Char) (h : c.isDigit = true) : 48 ≤ c.toNat ∧ c.toNat ≤ 57 := by
  simp only [Char.isDigit, Bool.and_eq_true, decide_eq_true_eq] at h
  exact ⟨h.1, h.2⟩

theorem isBlank_of_isDigit (c : Char) (h : c.isDigit = true) : isBlank c = false := by
  have h1 := isDigit_toNat c h
  unfold isBlank
  simp only [Bool.or_eq_false_iff, decide_eq_false_iff_not, Bool.and_eq_false_iff]
  refine ⟨⟨⟨⟨⟨⟨⟨⟨⟨⟨⟨⟨⟨?_, ?_⟩, ?_⟩, ?_⟩, ?_⟩, ?_⟩, ?_⟩, ?_⟩, ?_⟩, ?_⟩, ?_⟩, ?_⟩, ?_⟩, ?_⟩ <;>
    omega

theorem digitChar_toNat (d : Nat) (h : d < 10) : (Nat.digitChar d).toNat - '0'.toNat = d := by
  interval_cases d <;> decide

theorem foldl_toDigitsCore (fuel n : Nat) (acc : List Char) (h : n < fuel) :
    (Nat.toDigitsCore 10 fuel n acc).foldl (fun a d => 10 * a + (d.toNat - '0'.toNat)) 0
      = acc.foldl (fun a d => 10 * a + (d.toNat - '0'.toNat)) n := by
  induction fuel generalizing n acc with
  | zero => omega
  | succ fuel ih =>
    simp only [Nat.toDigitsCore]
    have hd := digitChar_toNat (n % 10) (Nat.mod_lt _ (by decide))
    split
    · rename_i h0
      simp only [List.foldl_cons, Nat.mul_zero, Nat.zero_add, hd]
      have : n % 10 = n := Nat.mod_eq_of_lt (by omega)
      rw [this]
    · rename_i h0
      rw [ih (n / 10) _ (by omega)]
      simp only [List.foldl_cons, hd]
      have : 10 * (n / 10) + n % 10 = n := Nat.div_add_mod n 10
      rw [this]

theorem digitsValue_natRepr (n : Nat) : digitsValue (toString n).data = n := by
  show digitsValue (Nat.repr n).data = n
  simp only [Nat.repr, Nat.toDigits, List.asString, digitsValue]
  rw [foldl_toDigitsCore _ _ _ (Nat.lt_succ_self n)]
  rfl

theorem takeWhile_isDigit (ds : List Char) (h : ∀ c ∈ ds, c.isDigit = true) :
    ds.takeWhile Char.isDigit = ds := by
  induction ds with
  | nil => rfl
  | cons c cs ih =>
    rw [List.takeWhile_cons_of_pos (h c (by simp)), ih (fun c hc => h c (List.mem_cons_of_mem _ hc))]

theorem sscanfInt_digits (ds : List Char) (hne : ds ≠ []) (h : ∀ c ∈ ds, c.isDigit = true)
    (hr : digitsValue ds < 2 ^ 63) : sscanfInt (String.mk ds) = digitsValue ds := by
  cases ds with
  | nil => exact absurd rfl hne
  | cons c cs =>
    have hc : c.isDigit = true := h c (by simp)
    have hb : isBlank c = false := isBlank_of_isDigit c hc
    have hm : c ≠ '-' := fun e => by rw [e] at hc; exact absurd hc (by decide)
    have hp : c ≠ '+' := fun e => by rw [e] at hc; exact absurd hc (by decide)
    have hs : acceptSign (c :: cs) = (false, c :: cs) := by
      unfold acceptSign
      split
      · rename_i t heq
        simp only [List.cons.injEq] at heq
        exact absurd heq.1 hm
      · rename_i t heq
        simp only [List.cons.injEq] at heq
        exact absurd heq.1 hp
      · rfl
    have hdrop : List.dropWhile isBlank (c :: cs) = c :: cs := by
      simp only [List.dropWhile_cons, hb, Bool.false_eq_true, if_false]
    unfold sscanfInt
    simp only [hdrop, hs, takeWhile_isDigit _ h, List.isEmpty_cons, Bool.false_eq_true, if_false]
    rw [if_pos ⟨by omega, by exact_mod_cast hr⟩]

theorem sscanfInt_neg_digits (ds : List Char) (hne : ds ≠ []) (h : ∀ c ∈ ds, c.isDigit = true)
    (hr : digitsValue ds ≤ 2 ^ 63) :
    sscanfInt (String.mk ('-' :: ds)) = - (digitsValue ds : Int) := by
  have hb : isBlank '-' = false := by decide
  have hdrop : List.dropWhile isBlank ('-' :: ds) = '-' :: ds := by
    simp only [List.dropWhile_cons, hb, Bool.false_eq_true, if_false]
  have hs : acceptSign ('-' :: ds) = (true, ds) := rfl
  have hem : ds.isEmpty = false := by
    cases ds with
    | nil => exact absurd rfl hne
    | cons c cs => rfl
  unfold sscanfInt
  simp only [hdrop, hs, takeWhile_isDigit _ h, hem, Bool.false_eq_true, if_false, if_true]
  rw [if_pos ⟨by omega, by omega⟩]

/-- `Sscanf("%d")` reads back what `Sprintf("%d")` printed for an `int`. -/
theorem sscanfInt_toString (z : Int) (h1 : - 2 ^ 63 ≤ z) (h2 : z < 2 ^ 63) :
    sscanfInt (toString z) = z := by
  cases z with
  | ofNat m =>
    have e : toString (Int.ofNat m) = String.mk (toString m).data := rfl
    rw [e, sscanfInt_digits _ (natRepr_ne_nil m) (natRepr_isDigit m)
      (by rw [digitsValue_natRepr]; have h3 : (m : Int) < 2 ^ 63 := h2; omega),
      digitsValue_natRepr]
    rfl
  | negSucc m =>
    have e : toString (Int.negSucc m) = String.mk ('-' :: (toString (m + 1)).data) := rfl
    rw [e, sscanfInt_neg_digits _ (natRepr_ne_nil _) (natRepr_isDigit _)
      (by rw [digitsValue_natRepr]; rw [Int.negSucc_eq] at h1; omega), digitsValue_natRepr]
    rw [Int.negSucc_eq]
    push_cast
    rfl

/-! ## Overwriting a record in place -/

theorem putEntries_replace (e : Entry) (v1 : String) (es : List Entry) (hs : SortedKeys es)
    (he : e ∈ es) :
    putEntries e.1 v1 es = es.map (fun r => if r = e then (e.1, v1) else r) := by
  induction es with
  | nil => simp at he
  | cons r es ih =>
    have hs2 := List.pairwise_cons.1 hs
    by_cases hr : r = e
    · subst hr
      have htail : es.map (fun r1 => if r1 = r then (r.1, v1) else r1) = es := by
        conv => rhs; rw [← List.map_id es]
        apply List.map_congr_left
        intro r1 hr1
        have hne : r1 ≠ r := by
          intro e1
          have := keyLess_ne _ _ (hs2.1 r1 hr1)
          exact this (by rw [e1])
        simp [hne]
      simp only [putEntries, List.map_cons, if_true, htail]
    · have hmem : e ∈ es := by
        rcases List.mem_cons.1 he with h | h
        · exact absurd h.symm hr
        · exact h
      have hlt := hs2.1 e hmem
      have hne : r.1 ≠ e.1 := keyLess_ne _ _ hlt
      have hnot : keyLess e.1 r.1 = false := keyLess_asymm _ _ hlt
      simp only [putEntries, hne, hnot, if_false, List.map_cons, hr, Bool.false_eq_true]
      rw [ih hs2.2 hmem]

theorem lookupShown_mem (x : String) (es : List Entry) (e : Entry)
    (h : lookupShown x es = some e) : e ∈ es := by
  induction es with
  | nil => simp [lookupShown] at h
  | cons r es ih =>
    obtain ⟨k, v⟩ := r
    simp only [lookupShown] at h
    split at h
    · simp only [Option.some.injEq] at h
      rw [← h]; simp
    · exact List.mem_cons_of_mem _ (ih h)

/-- C5 (amended). When the scan of `copySnippet` stops at a record `e` of at
least four fields (so that `fields[3]` exists) whose decoded use count `n` is
below the largest `int`, the copy succeeds and the store afterwards is the store before
with `e` alone replaced, in place, by a record whose use count field is the
decimal `n + 1`; `n` is `0` when the record has no use count field. -/
theorem copy_increments_useCount (b : Bucket) (x : String) (now : Int) (e : Entry)
    (hsorted : SortedKeys b.entries) (hsel : lookupShown x b.entries = some e)
    (hlen : 4 ≤ (split e.2).length) (hmax : useCountOf e.2 + 1 < 2 ^ 63) :
    ∃ nv, copySnippet x now b
          = some (true, { sequence := b.sequence,
                          entries := b.entries.map (fun r => if r = e then (e.1, nv) else r) })
      ∧ useCountOf nv = useCountOf e.2 + 1
      ∧ field nv 4 = toString (useCountOf e.2 + 1)
      ∧ (4 < (split e.2).length ∨ useCountOf e.2 = 0) := by
  have hmem := lookupShown_mem _ _ _ hsel
  have h3 := getElem?_of_lt_length (split e.2) 3 (by omega)
  have hrange := sscanfInt_range (useCountField (split e.2))
  have hcount : wrapInt (sscanfInt (useCountField (split e.2)) + 1) = useCountOf e.2 + 1 :=
    wrapInt_of_range _ (by omega) hmax
  have hval : copyValue (split e.2) now
      = some (sprintf6 ((split e.2).headD "") (shown (split e.2) 1) (shown (split e.2) 2)
          ((split e.2).getD 3 "") (toString (useCountOf e.2 + 1)) (toString now)) := by
    simp only [copyValue, h3, hcount]
  refine ⟨sprintf6 ((split e.2).headD "") (shown (split e.2) 1) (shown (split e.2) 2)
    ((split e.2).getD 3 "") (toString (useCountOf e.2 + 1)) (toString now), ?_, ?_, ?_, ?_⟩
  · unfold copySnippet
    rw [copyScan_eq, hsel]
    simp only [hval, Option.map, Bucket.put]
    rw [putEntries_replace e _ _ hsorted hmem]
  · unfold useCountOf
    rw [split_sprintf6 _ _ _ _ _ _ (bar_not_mem_headD _) (bar_not_mem_shown _ _)
      (bar_not_mem_shown _ _) (bar_not_mem_getD _ _) (bar_not_mem_intRepr _),
      split_of_not_mem _ (bar_not_mem_intRepr now)]
    have hu : useCountField [(split e.2).headD "", shown (split e.2) 1, shown (split e.2) 2,
        (split e.2).getD 3 "", toString (sscanfInt (useCountField (split e.2)) + 1),
        toString now] = toString (sscanfInt (useCountField (split e.2)) + 1) := rfl
    rw [hu]
    exact sscanfInt_toString _ (by omega) hmax
  · unfold field
    rw [split_sprintf6 _ _ _ _ _ _ (bar_not_mem_headD _) (bar_not_mem_shown _ _)
      (bar_not_mem_shown _ _) (bar_not_mem_getD _ _) (bar_not_mem_intRepr _)]
    rfl
  · by_cases h : 4 < (split e.2).length
    · exact Or.inl h
    · right
      have : useCountField (split e.2) = "0" := by simp [useCountField, h]
      unfold useCountOf
      rw [this]
      decide

theorem copy_increments_useCount_witness :
    ∃ nv, copySnippet "milk" 200 milkStore
          = some (true, { sequence := milkStore.sequence,
                          entries := milkStore.entries.map (fun r =>
                            if r = ("1", "buy milk|errand|milk|false|0|100") then ("1", nv)
                            else r) })
      ∧ useCountOf nv = useCountOf "buy milk|errand|milk|false|0|100" + 1
      ∧ field nv 4 = toString (useCountOf "buy milk|errand|milk|false|0|100" + 1)
      ∧ (4 < (split "buy milk|errand|milk|false|0|100").length
          ∨ useCountOf "buy milk|errand|milk|false|0|100" = 0) :=
  copy_increments_useCount milkStore "milk" 200 ("1", "buy milk|errand|milk|false|0|100")
    (by unfold SortedKeys; decide) (by decide) (by decide) (by decide)


/-- C5 as stated fails at the largest `int`: `grb save` of the text
`a|b|c|d|9223372036854775807` stores a record whose fifth field, the one
`copySnippet` scans as the use count, decodes to `2^63 - 1`, and one copy of
it stores the count `-2^63`, since `count++` wraps. -/
theorem copy_wraps_at_largest_int :
    saveSnippet "a|b|c|d|9223372036854775807" "" "" 100 Bucket.empty
        = (1, ⟨1, [("1", "a|b|c|d|9223372036854775807|||false|0|100")]⟩)
      ∧ useCountOf "a|b|c|d|9223372036854775807|||false|0|100" = 9223372036854775807
      ∧ copySnippet "1" 200 ⟨1, [("1", "a|b|c|d|9223372036854775807|||false|0|100")]⟩
          = some (true, ⟨1, [("1", "a|b|c|d|-9223372036854775808|200")]⟩)
      ∧ useCountOf "a|b|c|d|-9223372036854775808|200" = -9223372036854775808 := by
  decide

/-- C6, the failing input: `copySnippet("1")` on `helloStore`, whose record has
an empty tag and an empty alias, writes the record back with tag `-` and alias
`-`: the display defaults reach the store, so more than the use count and the
timestamp changes. -/
theorem copy_rewrites_empty_fields :
    copySnippet "1" 200 helloStore = some (true, ⟨1, [("1", "hello|-|-|false|1|200")]⟩)
      ∧ (field "hello|||false|0|100" 1, field "hello|||false|0|100" 2) = ("", "")
      ∧ (field "hello|-|-|false|1|200" 1, field "hello|-|-|false|1|200" 2) = ("-", "-") := by
  decide

/-- C7, the failing input: two `pinSnippet("1")` in a row on `helloStore` give
back the pinned flag `false`, but the tag and the alias, stored empty before
the first call, are `-` afterwards. -/
theorem pin_twice_rewrites_empty_fields :
    pinSnippet "1" 200 helloStore = some (true, ⟨1, [("1", "hello|-|-|true|0|200")]⟩)
      ∧ pinSnippet "1" 300 ⟨1, [("1", "hello|-|-|true|0|200")]⟩
          = some (true, ⟨1, [("1", "hello|-|-|false|0|300")]⟩)
      ∧ (field "hello|||false|0|100" 1, field "hello|||false|0|100" 2) = ("", "")
      ∧ (field "hello|-|-|false|0|300" 1, field "hello|-|-|false|0|300" 2) = ("-", "-") := by
  decide

/-- C10, the failing input: in `helloStore` no record has the id `-` or the
stored alias `-`; `updateAlias` and `deleteSnippet` report not-found and leave
the store alone, but `copySnippet("-")` and `pinSnippet("-")` find the record,
whose empty alias reads `-`, and rewrite it. -/
theorem dash_matches_empty_alias :
    helloStore.entries.find? (fun e => decide (e.1 = "-" ∨ field e.2 2 = "-")) = none
      ∧ updateAlias "-" "new" helloStore = some (false, helloStore)
      ∧ deleteSnippet "-" helloStore = some (false, helloStore)
      ∧ copySnippet "-" 200 helloStore = some (true, ⟨1, [("1", "hello|-|-|false|1|200")]⟩)
      ∧ pinSnippet "-" 200 helloStore = some (true, ⟨1, [("1", "hello|-|-|true|0|200")]⟩) := by
  decide

/-! ## clearSnippets -/

theorem deleteEntries_append (k v : String) (pre rest : List Entry)
    (h : ∀ e ∈ pre, e.1 ≠ k) : deleteEntries k (pre ++ (k, v) :: rest) = pre ++ rest := by
  induction pre with
  | nil => simp [deleteEntries]
  | cons e pre ih =>
    have h1 : e.1 ≠ k := h e (by simp)
    have ih2 := ih (fun e he => h e (List.mem_cons_of_mem _ he))
    show deleteEntries k (e :: (pre ++ (k, v) :: rest)) = e :: (pre ++ rest)
    simp only [deleteEntries, h1, if_false, ih2]

theorem clearScan_eq (all : Bool) (tag : String) (unpinned : Bool) (rest : List Entry) :
    ∀ (d : Nat) (cur : Bucket) (pre : List Entry), cur.entries = pre ++ rest →
      (∀ e ∈ pre, ∀ r ∈ rest, e.1 ≠ r.1) → rest.Pairwise (fun a c => a.1 ≠ c.1) →
      (∀ e ∈ rest, 4 ≤ (split e.2).length) →
      clearScan all tag unpinned rest d cur
        = some (d + (rest.filter (fun e => clearTest all tag unpinned e.2)).length,
            { sequence := cur.sequence,
              entries := pre ++ rest.filter (fun e => !clearTest all tag unpinned e.2) }) := by
  induction rest with
  | nil =>
    intro d cur pre hcur _ _ _
    simp only [clearScan, List.filter_nil, List.length_nil, Nat.add_zero, List.append_nil]
    rw [← List.append_nil pre, ← hcur]
  | cons r rest ih =>
    intro d cur pre hcur hpre hpw hwf
    obtain ⟨k, v⟩ := r
    have hlen : 4 ≤ (split v).length := hwf (k, v) (by simp)
    have h1 := getElem?_of_lt_length (split v) 1 (by omega)
    have h2 := getElem?_of_lt_length (split v) 2 (by omega)
    have h3 := getElem?_of_lt_length (split v) 3 (by omega)
    have hpw2 := List.pairwise_cons.1 hpw
    have hwf2 : ∀ e ∈ rest, 4 ≤ (split e.2).length :=
      fun e he => hwf e (List.mem_cons_of_mem _ he)
    simp only [clearScan, h1, h2, h3]
    by_cases hc : all = true ∨ (tag ≠ "" ∧ field v 1 = tag)
        ∨ (unpinned = true ∧ field v 3 = "false")
    · have ht : clearTest all tag unpinned v = true := by
        unfold clearTest; exact decide_eq_true hc
      have hc2 : all = true ∨ (tag ≠ "" ∧ (split v).getD 1 "" = tag)
          ∨ (unpinned = true ∧ (split v).getD 3 "" = "false") := hc
      rw [if_pos hc2]
      have hdel : (cur.delete k).entries = pre ++ rest := by
        simp only [Bucket.delete, hcur]
        exact deleteEntries_append k v pre rest
          (fun e he => hpre e he (k, v) (by simp))
      rw [ih (d + 1) (cur.delete k) pre hdel
        (fun e he r hr => hpre e he r (List.mem_cons_of_mem _ hr)) hpw2.2 hwf2]
      simp only [List.filter_cons, ht, if_true, List.length_cons, Bool.not_true,
        Bool.false_eq_true, if_false]
      have : (cur.delete k).sequence = cur.sequence := rfl
      rw [this]
      congr 2
      omega
    · have ht : clearTest all tag unpinned v = false := by
        unfold clearTest; exact decide_eq_false hc
      have hc2 : ¬ (all = true ∨ (tag ≠ "" ∧ (split v).getD 1 "" = tag)
          ∨ (unpinned = true ∧ (split v).getD 3 "" = "false")) := hc
      rw [if_neg hc2]
      rw [ih d cur (pre ++ [(k, v)]) (by rw [hcur]; simp)
        (by
          intro e he r hr
          rcases List.mem_append.1 he with he | he
          · exact hpre e he r (List.mem_cons_of_mem _ hr)
          · simp only [List.mem_singleton] at he
            rw [he]
            exact hpw2.1 r hr) hpw2.2 hwf2]
      simp only [List.filter_cons, ht, Bool.false_eq_true, if_false, Bool.not_false, if_true,
        List.append_assoc, List.singleton_append]

theorem sortedKeys_pairwise_ne (es : List Entry) (h : SortedKeys es) :
    es.Pairwise (fun a c => a.1 ≠ c.1) :=
  List.Pairwise.imp (fun hab => keyLess_ne _ _ hab) h

theorem clearSnippets_eq (all : Bool) (tag : String) (unpinned : Bool) (b : Bucket)
    (hsorted : SortedKeys b.entries) (hwf : ∀ e ∈ b.entries, 4 ≤ (split e.2).length) :
    clearSnippets all tag unpinned b
      = some ((b.entries.filter (fun e => clearTest all tag unpinned e.2)).length,
          { sequence := b.sequence,
            entries := b.entries.filter (fun e => !clearTest all tag unpinned e.2) }) := by
  unfold clearSnippets
  rw [clearScan_eq all tag unpinned b.entries 0 b [] rfl (by simp)
    (sortedKeys_pairwise_ne _ hsorted) hwf]
  simp

/-- C8 (amended). On a store whose records have at least four fields, clearing
by a non-empty tag `x` removes exactly the records whose stored tag is `x`,
keeps every other record unchanged and in place, and reports the number of
records removed; clearing with `all` removes every record. -/
theorem clear_by_tag_and_all (b : Bucket) (x : String) (hsorted : SortedKeys b.entries)
    (hwf : ∀ e ∈ b.entries, 4 ≤ (split e.2).length) (hx : x ≠ "") :
    clearSnippets false x false b
        = some ((b.entries.filter (fun e => decide (field e.2 1 = x))).length,
            { sequence := b.sequence,
              entries := b.entries.filter (fun e => decide (field e.2 1 ≠ x)) })
      ∧ ∀ (tag : String) (unpinned : Bool),
          clearSnippets true tag unpinned b
            = some (b.entries.length, { sequence := b.sequence, entries := [] }) := by
  constructor
  · rw [clearSnippets_eq false x false b hsorted hwf]
    have ht : ∀ v, clearTest false x false v = decide (field v 1 = x) := by
      intro v
      unfold clearTest
      by_cases h : field v 1 = x <;> simp [h, hx]
    simp only [ht]
    congr 3
    apply List.filter_congr
    intro e _
    by_cases h : field e.2 1 = x <;> simp [h]
  · intro tag unpinned
    rw [clearSnippets_eq true tag unpinned b hsorted hwf]
    have ht : ∀ v, clearTest true tag unpinned v = true := by
      intro v
      unfold clearTest
      simp
    simp [ht]

theorem clear_by_tag_and_all_witness :
    clearSnippets false "errand" false
        ⟨3, [("1", "buy milk|errand|milk|false|0|100"), ("3", "hello|||false|0|102")]⟩
        = some (([("1", "buy milk|errand|milk|false|0|100"), ("3", "hello|||false|0|102")].filter
              (fun e => decide (field e.2 1 = "errand"))).length,
            { sequence := 3,
              entries := [("1", "buy milk|errand|milk|false|0|100"),
                ("3", "hello|||false|0|102")].filter
                  (fun e => decide (field e.2 1 ≠ "errand")) })
      ∧ ∀ (tag : String) (unpinned : Bool),
          clearSnippets true tag unpinned
              ⟨3, [("1", "buy milk|errand|milk|false|0|100"), ("3", "hello|||false|0|102")]⟩
            = some (2, { sequence := 3, entries := [] }) :=
  clear_by_tag_and_all
    ⟨3, [("1", "buy milk|errand|milk|false|0|100"), ("3", "hello|||false|0|102")]⟩ "errand"
    (by unfold SortedKeys; decide) (by decide) (by decide)

/-- C8 as stated fails for the empty tag: the record of `helloStore` has the
stored tag `""`, and `clearSnippets(false, "", false)` removes nothing, since
an empty `tag` means that no tag filter was given. -/
theorem clear_empty_tag_keeps_untagged :
    field "hello|||false|0|100" 1 = ""
      ∧ clearSnippets false "" false helloStore = some (0, helloStore) := by
  decide


/-! ## listSnippets -/

theorem pinnedFlag_eq_true_iff (v : String) :
    pinnedFlag (split v) = "true" ↔ field v 3 = "true" := by
  unfold pinnedFlag field
  split
  · exact Iff.rfl
  · rename_i h
    rw [getD_of_length_le _ _ (by omega)]
    constructor <;> intro e <;> exact absurd e (by decide)

theorem listScan_eq (es : List Entry) :
    ∀ (total : Nat) (pinnedRows otherRows : List Row),
      listScan es (total, pinnedRows, otherRows)
        = (total + es.length,
            pinnedRows ++ (es.filter (fun e => decide (field e.2 3 = "true"))).map rowOf,
            otherRows ++ (es.filter (fun e => !decide (field e.2 3 = "true"))).map rowOf) := by
  induction es with
  | nil => intro total pinnedRows otherRows; simp [listScan]
  | cons e es ih =>
    intro total pinnedRows otherRows
    obtain ⟨k, v⟩ := e
    simp only [listScan]
    by_cases h : field v 3 = "true"
    · rw [if_pos ((pinnedFlag_eq_true_iff v).2 h), ih]
      simp only [List.filter_cons, h, decide_True, if_true, Bool.not_true, Bool.false_eq_true,
        if_false, List.map_cons, List.append_assoc, List.singleton_append, List.length_cons,
        rowOf]
      congr 1
      omega
    · rw [if_neg (fun hp => h ((pinnedFlag_eq_true_iff v).1 hp)), ih]
      simp only [List.filter_cons, h, decide_False, Bool.false_eq_true, if_false, Bool.not_false,
        if_true, List.map_cons, List.append_assoc, List.singleton_append, List.length_cons,
        rowOf]
      congr 1
      omega

/-- C9. `listSnippets` counts every record and returns the rows of the records
whose pinned field is `true`, in scan order, and then the rows of all the
others, in scan order: together the two tables hold the row of every record
exactly once. -/
theorem list_pinned_then_others (b : Bucket) :
    listSnippets b
        = (b.entries.length,
            (b.entries.filter (fun e => decide (field e.2 3 = "true"))).map rowOf,
            (b.entries.filter (fun e => decide (field e.2 3 ≠ "true"))).map rowOf)
      ∧ ((listSnippets b).2.1 ++ (listSnippets b).2.2).Perm (b.entries.map rowOf) := by
  have hf : b.entries.filter (fun e => decide (field e.2 3 ≠ "true"))
      = b.entries.filter (fun e => !decide (field e.2 3 = "true")) := by
    apply List.filter_congr
    intro e _
    simp
  have h : listSnippets b
      = (b.entries.length,
          (b.entries.filter (fun e => decide (field e.2 3 = "true"))).map rowOf,
          (b.entries.filter (fun e => !decide (field e.2 3 = "true"))).map rowOf) := by
    unfold listSnippets
    rw [listScan_eq]
    simp
  constructor
  · rw [hf]; exact h
  · rw [h]
    simp only
    rw [← List.map_append]
    exact (List.filter_append_perm _ _).map rowOf


/-- C11, the failing inputs: on `shortStore`, whose record has one field, the
guarded scans (`listSnippets`, `searchSnippets`, `showStats`) complete, but
copy and pin of the record, rename, delete and clear of anything, and the
loader of the interactive list panic on an index out of range; on
`fourFieldStore` pin panics on `fields[4]`. -/
theorem short_record_panics :
    listSnippets shortStore = (1, [], [["1", "hello", "-", "-"]])
      ∧ searchSnippets Char.toLower "h" shortStore = ([], [["1", "hello", "-", "-"]])
      ∧ (showStats shortStore).total = 1
      ∧ copySnippet "1" 200 shortStore = none
      ∧ pinSnippet "1" 200 shortStore = none
      ∧ updateAlias "2" "new" shortStore = none
      ∧ deleteSnippet "2" shortStore = none
      ∧ clearSnippets true "" false shortStore = none
      ∧ launchTUI shortStore = none
      ∧ pinSnippet "1" 200 fourFieldStore = none := by
  decide

/-! ## showStats -/

theorem statsScan_cons (k v : String) (es : List Entry) (st : Stats) :
    ∃ st3, statsScan ((k, v) :: es) st = statsScan es st3
      ∧ st3.maxCount = (if statsCount (split v) > st.maxCount then statsCount (split v)
          else st.maxCount)
      ∧ st3.topSnippet = (if statsCount (split v) > st.maxCount then
          "[" ++ k ++ "] " ++ (split v).headD "" else st.topSnippet) := by
  refine ⟨_, rfl, ?_, ?_⟩ <;> (simp only []; split_ifs <;> rfl)

theorem statsScan_spec (es : List Entry) :
    ∀ (st : Stats),
      st.maxCount ≤ (statsScan es st).maxCount
        ∧ (∀ e ∈ es, statsCount (split e.2) ≤ (statsScan es st).maxCount)
        ∧ ((∀ e ∈ es, statsCount (split e.2) ≤ st.maxCount) →
            (statsScan es st).maxCount = st.maxCount
              ∧ (statsScan es st).topSnippet = st.topSnippet)
        ∧ ((∃ e ∈ es, st.maxCount < statsCount (split e.2)) →
            ∃ e, es.find? (fun r => decide (statsCount (split r.2)
                  = (statsScan es st).maxCount)) = some e
              ∧ (statsScan es st).topSnippet = "[" ++ e.1 ++ "] " ++ (split e.2).headD "") := by
  induction es with
  | nil =>
    intro st
    simp [statsScan]
  | cons e es ih =>
    intro st
    obtain ⟨k, v⟩ := e
    obtain ⟨st3, hscan, hmax3, htop3⟩ := statsScan_cons k v es st
    rw [hscan]
    obtain ⟨h1, h2, h3, h4⟩ := ih st3
    by_cases hgt : statsCount (split v) > st.maxCount
    · rw [if_pos hgt] at hmax3 htop3
      refine ⟨by omega, ?_, ?_, ?_⟩
      · intro e he
        rcases List.mem_cons.1 he with he | he
        · rw [he]; simp only; omega
        · exact h2 e he
      · intro hall
        have := hall (k, v) (by simp)
        simp only at this
        omega
      · intro _
        by_cases hlater : ∃ e ∈ es, statsCount (split v) < statsCount (split e.2)
        · obtain ⟨e, hf, ht⟩ := h4 (by rw [hmax3]; exact hlater)
          obtain ⟨e1, he1, hlt⟩ := hlater
          have hbig := h2 e1 he1
          refine ⟨e, ?_, ht⟩
          rw [List.find?_cons_of_neg _ (by simp only [decide_eq_true_eq]; omega)]
          exact hf
        · have hall : ∀ e ∈ es, statsCount (split e.2) ≤ st3.maxCount := by
            intro e he
            by_contra hc
            exact hlater ⟨e, he, by omega⟩
          obtain ⟨hm, ht⟩ := h3 hall
          refine ⟨(k, v), ?_, ?_⟩
          · rw [List.find?_cons_of_pos _ (by simp only [decide_eq_true_eq]; omega)]
          · rw [ht, htop3]
    · rw [if_neg hgt] at hmax3 htop3
      refine ⟨by omega, ?_, ?_, ?_⟩
      · intro e he
        rcases List.mem_cons.1 he with he | he
        · rw [he]; simp only; omega
        · exact h2 e he
      · intro hall
        obtain ⟨hm, ht⟩ := h3 (fun e he => by
          have := hall e (List.mem_cons_of_mem _ he); omega)
        exact ⟨by omega, by rw [ht, htop3]⟩
      · intro hex
        have hex2 : ∃ e ∈ es, st3.maxCount < statsCount (split e.2) := by
          obtain ⟨e, he, hlt⟩ := hex
          rcases List.mem_cons.1 he with he | he
          · rw [he] at hlt; simp only at hlt; omega
          · exact ⟨e, he, by omega⟩
        obtain ⟨e, hf, ht⟩ := h4 hex2
        obtain ⟨e1, he1, hlt⟩ := hex2
        have hbig := h2 e1 he1
        refine ⟨e, ?_, ht⟩
        rw [List.find?_cons_of_neg _ (by simp only [decide_eq_true_eq]; omega)]
        exact hf

/-- C14 (amended). In a store in which some record has a positive use count,
the most used snippet of `showStats` is the first record in scan order whose
use count equals the reported count, and the reported count is the maximum
of the use counts of all records. -/
theorem stats_most_used (b : Bucket) (h : ∃ e ∈ b.entries, 0 < statsCount (split e.2)) :
    ∃ e, b.entries.find? (fun r => decide (statsCount (split r.2) = (showStats b).maxCount))
          = some e
      ∧ (showStats b).topSnippet = "[" ++ e.1 ++ "] " ++ (split e.2).headD ""
      ∧ ∀ r ∈ b.entries, statsCount (split r.2) ≤ (showStats b).maxCount := by
  obtain ⟨_, h2, _, h4⟩ := statsScan_spec b.entries
    { total := 0, tagCount := [], topSnippet := "", maxCount := 0, topTag := "",
      maxTagCount := 0 }
  obtain ⟨e, hf, ht⟩ := h4 h
  exact ⟨e, hf, ht, h2⟩

theorem stats_most_used_witness :
    ∃ e, [("1", "a|t||false|2|1"), ("2", "b|t||false|5|1"), ("3", "c|u||false|5|1")].find?
          (fun r => decide (statsCount (split r.2)
            = (showStats ⟨3, [("1", "a|t||false|2|1"), ("2", "b|t||false|5|1"),
                ("3", "c|u||false|5|1")]⟩).maxCount)) = some e
      ∧ (showStats ⟨3, [("1", "a|t||false|2|1"), ("2", "b|t||false|5|1"),
            ("3", "c|u||false|5|1")]⟩).topSnippet = "[" ++ e.1 ++ "] " ++ (split e.2).headD ""
      ∧ ∀ r ∈ [("1", "a|t||false|2|1"), ("2", "b|t||false|5|1"), ("3", "c|u||false|5|1")],
          statsCount (split r.2)
            ≤ (showStats ⟨3, [("1", "a|t||false|2|1"), ("2", "b|t||false|5|1"),
                ("3", "c|u||false|5|1")]⟩).maxCount :=
  stats_most_used ⟨3, [("1", "a|t||false|2|1"), ("2", "b|t||false|5|1"),
    ("3", "c|u||false|5|1")]⟩ ⟨("2", "b|t||false|5|1"), by decide, by decide⟩

/-- C14 as stated fails: `helloStore` is not empty and the maximum use count
of its records is `0`, attained by record `1`, but `showStats` reports no most
used snippet, since only a count above the initial `0` sets it. -/
theorem stats_no_most_used_at_zero :
    helloStore.entries = [("1", "hello|||false|0|100")]
      ∧ statsCount (split "hello|||false|0|100") = 0
      ∧ (showStats helloStore).topSnippet = ""
      ∧ (showStats helloStore).maxCount = 0 := by
  decide

/-! ## How many fields a written record has -/

theorem splitChars_length_cons (c : Char) (cs : List Char) (h : c ≠ '|') :
    (splitChars (c :: cs)).length = (splitChars cs).length := by
  simp only [splitChars, h, if_false]
  split
  · rename_i e; exact absurd e (splitChars_ne_nil cs)
  · rename_i f fs e; rw [e]; rfl

theorem splitChars_length_pos (cs : List Char) : 1 ≤ (splitChars cs).length := by
  cases h : splitChars cs with
  | nil => exact absurd h (splitChars_ne_nil cs)
  | cons f fs => simp

theorem splitChars_append_bar_length (a r : List Char) :
    (splitChars (a ++ '|' :: r)).length = (splitChars a).length + (splitChars r).length := by
  induction a with
  | nil => simp [splitChars]; omega
  | cons c cs ih =>
    by_cases hc : c = '|'
    · subst hc
      have h1 : splitChars ('|' :: (cs ++ '|' :: r)) = [] :: splitChars (cs ++ '|' :: r) := by
        simp [splitChars]
      have h2 : splitChars ('|' :: cs) = [] :: splitChars cs := by
        simp [splitChars]
      rw [List.cons_append, h1, h2, List.length_cons, List.length_cons, ih]
      omega
    · rw [List.cons_append, splitChars_length_cons _ _ hc, splitChars_length_cons _ _ hc, ih]

theorem split_length_pos (s : String) : 1 ≤ (split s).length := by
  simp only [split, List.length_map]
  exact splitChars_length_pos _

theorem split_append_bar_length (a r : String) :
    (split (a ++ "|" ++ r)).length = (split a).length + (split r).length := by
  have hbar : ("|" : String).data = ['|'] := rfl
  simp only [split, List.length_map, String.data_append, hbar, List.append_assoc,
    List.singleton_append]
  exact splitChars_append_bar_length _ _

theorem sprintf6_length (a b c d e f : String) : 6 ≤ (split (sprintf6 a b c d e f)).length := by
  have h : sprintf6 a b c d e f
      = a ++ "|" ++ (b ++ "|" ++ (c ++ "|" ++ (d ++ "|" ++ (e ++ "|" ++ f)))) := by
    simp only [sprintf6, String.append_assoc]
  rw [h]
  simp only [split_append_bar_length]
  have := split_length_pos a
  have := split_length_pos b
  have := split_length_pos c
  have := split_length_pos d
  have := split_length_pos e
  have := split_length_pos f
  omega

theorem join_length (fs : List String) : fs.length ≤ (split (join fs)).length := by
  induction fs with
  | nil => simp
  | cons f fs ih =>
    cases fs with
    | nil =>
      simp only [join, List.length_singleton]
      exact split_length_pos f
    | cons g gs =>
      simp only [join, split_append_bar_length, List.length_cons] at ih ⊢
      have := split_length_pos f
      omega


/-! ## What a transaction does to the entries -/

theorem mem_putEntries (k v : String) (es : List Entry) (e : Entry)
    (h : e ∈ putEntries k v es) : e = (k, v) ∨ e ∈ es := by
  induction es with
  | nil => simp [putEntries] at h; exact Or.inl h
  | cons r es ih =>
    simp only [putEntries] at h
    split at h
    · rcases List.mem_cons.1 h with h | h
      · exact Or.inl h
      · exact Or.inr (List.mem_cons_of_mem _ h)
    · split at h
      · rcases List.mem_cons.1 h with h | h
        · exact Or.inl h
        · exact Or.inr h
      · rcases List.mem_cons.1 h with h | h
        · exact Or.inr (by rw [h]; simp)
        · rcases ih h with h | h
          · exact Or.inl h
          · exact Or.inr (List.mem_cons_of_mem _ h)

theorem mem_deleteEntries (k : String) (es : List Entry) (e : Entry)
    (h : e ∈ deleteEntries k es) : e ∈ es := by
  induction es with
  | nil => simp [deleteEntries] at h
  | cons r es ih =>
    simp only [deleteEntries] at h
    split at h
    · exact List.mem_cons_of_mem _ h
    · rcases List.mem_cons.1 h with h | h
      · rw [h]; simp
      · exact List.mem_cons_of_mem _ (ih h)

theorem lookupStored_mem (x : String) (es : List Entry) (e : Entry)
    (h : lookupStored x es = some (some e)) : e ∈ es := by
  induction es with
  | nil => simp [lookupStored] at h
  | cons r es ih =>
    obtain ⟨k, v⟩ := r
    simp only [lookupStored] at h
    split at h
    · exact absurd h (by simp)
    · split at h
      · simp only [Option.some.injEq] at h
        rw [← h]; simp
      · exact List.mem_cons_of_mem _ (ih h)

theorem copySnippet_cases (x : String) (now : Int) (b : Bucket) :
    copySnippet x now b = none ∨ copySnippet x now b = some (false, b)
      ∨ ∃ e0 ∈ b.entries, ∃ nv, copyValue (split e0.2) now = some nv
          ∧ copySnippet x now b = some (true, b.put e0.1 nv) := by
  unfold copySnippet
  rw [copyScan_eq]
  cases hl : lookupShown x b.entries with
  | none => exact Or.inr (Or.inl rfl)
  | some e0 =>
    cases hv : copyValue (split e0.2) now with
    | none => left; simp [hv]
    | some nv =>
      right; right
      exact ⟨e0, lookupShown_mem _ _ _ hl, nv, hv, by simp [hv]⟩

theorem pinSnippet_cases (x : String) (now : Int) (b : Bucket) :
    pinSnippet x now b = none ∨ pinSnippet x now b = some (false, b)
      ∨ ∃ e0 ∈ b.entries, ∃ nv, pinValue (split e0.2) now = some nv
          ∧ pinSnippet x now b = some (true, b.put e0.1 nv) := by
  unfold pinSnippet
  rw [pinScan_eq]
  cases hl : lookupShown x b.entries with
  | none => exact Or.inr (Or.inl rfl)
  | some e0 =>
    cases hv : pinValue (split e0.2) now with
    | none => left; simp [hv]
    | some nv =>
      right; right
      exact ⟨e0, lookupShown_mem _ _ _ hl, nv, hv, by simp [hv]⟩

theorem updateAlias_cases (x a : String) (b : Bucket) :
    updateAlias x a b = none ∨ updateAlias x a b = some (false, b)
      ∨ ∃ e0 ∈ b.entries,
          updateAlias x a b = some (true, b.put e0.1 (join ((split e0.2).set 2 a))) := by
  unfold updateAlias
  rw [aliasScan_eq]
  cases hl : lookupStored x b.entries with
  | none => exact Or.inl rfl
  | some r =>
    cases r with
    | none => exact Or.inr (Or.inl rfl)
    | some e0 => exact Or.inr (Or.inr ⟨e0, lookupStored_mem _ _ _ hl, rfl⟩)

theorem deleteSnippet_cases (x : String) (b : Bucket) :
    deleteSnippet x b = none ∨ deleteSnippet x b = some (false, b)
      ∨ ∃ e0 ∈ b.entries, deleteSnippet x b = some (true, b.delete e0.1) := by
  unfold deleteSnippet
  rw [deleteScan_eq]
  cases hl : lookupStored x b.entries with
  | none => exact Or.inl rfl
  | some r =>
    cases r with
    | none => exact Or.inr (Or.inl rfl)
    | some e0 => exact Or.inr (Or.inr ⟨e0, lookupStored_mem _ _ _ hl, rfl⟩)

theorem clearScan_subset (all : Bool) (tag : String) (unpinned : Bool) (rest : List Entry) :
    ∀ (d : Nat) (cur : Bucket) (r : Nat × Bucket),
      clearScan all tag unpinned rest d cur = some r → ∀ e ∈ r.2.entries, e ∈ cur.entries := by
  induction rest with
  | nil =>
    intro d cur r h e he
    simp only [clearScan, Option.some.injEq] at h
    rw [← h] at he
    exact he
  | cons x rest ih =>
    intro d cur r h e he
    obtain ⟨k, v⟩ := x
    simp only [clearScan] at h
    split at h
    · split at h
      · exact mem_deleteEntries k _ _ (ih _ _ _ h e he)
      · exact ih _ _ _ h e he
    · exact absurd h (by simp)

theorem copyValue_length (fields : List String) (now : Int) (nv : String)
    (h : copyValue fields now = some nv) : 6 ≤ (split nv).length := by
  unfold copyValue at h
  split at h
  · exact absurd h (by simp)
  · simp only [Option.some.injEq] at h
    rw [← h]
    exact sprintf6_length _ _ _ _ _ _

theorem pinValue_length (fields : List String) (now : Int) (nv : String)
    (h : pinValue fields now = some nv) : 6 ≤ (split nv).length := by
  unfold pinValue at h
  split at h
  · exact absurd h (by simp)
  · simp only [Option.some.injEq] at h
    rw [← h]
    exact sprintf6_length _ _ _ _ _ _

theorem editScan_cases (x : String) (es : List Entry) :
    ∀ (found r : String × List String), editScan x es (some found) = some r →
      r = found ∨ ∃ e0 ∈ es, r = (e0.1, split e0.2) := by
  induction es with
  | nil =>
    intro found r h
    simp only [editScan, Option.some.injEq] at h
    exact Or.inl h.symm
  | cons e es ih =>
    intro found r h
    obtain ⟨k, v⟩ := e
    simp only [editScan] at h
    split at h
    · rcases ih _ _ h with h1 | ⟨e0, he0, h1⟩
      · exact Or.inr ⟨(k, v), by simp, h1⟩
      · exact Or.inr ⟨e0, List.mem_cons_of_mem _ he0, h1⟩
    · rcases ih _ _ h with h1 | ⟨e0, he0, h1⟩
      · exact Or.inl h1
      · exact Or.inr ⟨e0, List.mem_cons_of_mem _ he0, h1⟩

theorem editFind_mem (x : String) (b : Bucket) (r : String × List String)
    (h : editFind x b = some r) : ∃ e0 ∈ b.entries, r = (e0.1, split e0.2) := by
  unfold editFind at h
  generalize b.entries = es at h
  induction es with
  | nil => simp [editScan] at h
  | cons e es ih =>
    obtain ⟨k, v⟩ := e
    simp only [editScan] at h
    split at h
    · rcases editScan_cases _ _ _ _ h with h1 | ⟨e0, he0, h1⟩
      · exact ⟨(k, v), by simp, h1⟩
      · exact ⟨e0, List.mem_cons_of_mem _ he0, h1⟩
    · obtain ⟨e0, he0, h1⟩ := ih h
      exact ⟨e0, List.mem_cons_of_mem _ he0, h1⟩

/-- Where the entries after a transaction come from: an entry is one of the
entries before, or was written over the key of an entry before (by copy, pin
or rename), or over the key that an edit had read, or under the next id of
the sequence (by a save or a capture). -/
theorem step_entries (s : Sys) (op : Op) :
    ∀ e ∈ (step s op).1.bucket.entries,
      e ∈ s.bucket.entries
        ∨ (∃ e0 ∈ s.bucket.entries, e.1 = e0.1
            ∧ (6 ≤ (split e.2).length ∨ (split e0.2).length ≤ (split e.2).length))
        ∨ (∃ p ∈ s.editing, e.1 = p.2.1 ∧ p.2.2.length ≤ (split e.2).length)
        ∨ (e.1 = toString ((s.bucket.sequence + 1) % 2 ^ 64) ∧ 6 ≤ (split e.2).length
            ∧ (step s op).1.bucket.sequence = (s.bucket.sequence + 1) % 2 ^ 64) := by
  intro e he
  cases op with
  | save text tag a now =>
    rcases mem_putEntries _ _ _ _ he with h | h
    · right; right; right
      rw [h]
      exact ⟨rfl, sprintf6_length _ _ _ _ _ _, rfl⟩
    · exact Or.inl h
  | daemon text now =>
    simp only [step, daemonStep] at he
    split at he
    · rcases mem_putEntries _ _ _ _ he with h | h
      · right; right; right
        rw [h]
        refine ⟨rfl, sprintf6_length _ _ _ _ _ _, ?_⟩
        simp only [step, daemonStep]
        rename_i hc
        rw [if_pos hc]
        rfl
      · exact Or.inl h
    · exact Or.inl he
  | copy x now =>
    simp only [step] at he
    rcases copySnippet_cases x now s.bucket with h | h | ⟨e0, he0, nv, hv, h⟩
    · rw [h] at he; exact Or.inl he
    · rw [h] at he; exact Or.inl he
    · rw [h] at he
      rcases mem_putEntries _ _ _ _ he with h1 | h1
      · right; left
        exact ⟨e0, he0, by rw [h1], Or.inl (by rw [h1]; exact copyValue_length _ _ _ hv)⟩
      · exact Or.inl h1
  | pin x now =>
    simp only [step] at he
    rcases pinSnippet_cases x now s.bucket with h | h | ⟨e0, he0, nv, hv, h⟩
    · rw [h] at he; exact Or.inl he
    · rw [h] at he; exact Or.inl he
    · rw [h] at he
      rcases mem_putEntries _ _ _ _ he with h1 | h1
      · right; left
        exact ⟨e0, he0, by rw [h1], Or.inl (by rw [h1]; exact pinValue_length _ _ _ hv)⟩
      · exact Or.inl h1
  | rename x a =>
    simp only [step] at he
    rcases updateAlias_cases x a s.bucket with h | h | ⟨e0, he0, h⟩
    · rw [h] at he; exact Or.inl he
    · rw [h] at he; exact Or.inl he
    · rw [h] at he
      rcases mem_putEntries _ _ _ _ he with h1 | h1
      · right; left
        refine ⟨e0, he0, by rw [h1], Or.inr ?_⟩
        rw [h1]
        have := join_length ((split e0.2).set 2 a)
        simpa using this
      · exact Or.inl h1
  | delete x =>
    simp only [step] at he
    rcases deleteSnippet_cases x s.bucket with h | h | ⟨e0, _, h⟩
    · rw [h] at he; exact Or.inl he
    · rw [h] at he; exact Or.inl he
    · rw [h] at he
      exact Or.inl (mem_deleteEntries _ _ _ he)
  | clear all tag unpinned =>
    simp only [step] at he
    cases h : clearSnippets all tag unpinned s.bucket with
    | none => rw [h] at he; exact Or.inl he
    | some r =>
      rw [h] at he
      exact Or.inl (clearScan_subset _ _ _ _ _ _ _ h e he)
  | editRead proc x =>
    simp only [step] at he
    split at he <;> exact Or.inl he
  | editSave proc newText =>
    simp only [step] at he
    split at he
    · rename_i q key original hf
      rcases mem_putEntries _ _ _ _ he with h1 | h1
      · right; right; left
        refine ⟨(q, key, original), List.mem_of_find?_eq_some hf, by rw [h1], ?_⟩
        rw [h1]
        have := join_length (original.set 0 newText)
        simpa using this
      · exact Or.inl h1
    · exact Or.inl he

/-- Where the pending edits after a transaction come from: a pending edit was
pending before, or it holds the key and the split value of an entry. -/
theorem step_editing (s : Sys) (op : Op) :
    ∀ p ∈ (step s op).1.editing,
      p ∈ s.editing ∨ ∃ e0 ∈ s.bucket.entries, p.2.1 = e0.1 ∧ p.2.2 = split e0.2 := by
  intro p hp
  cases op with
  | save text tag a now => exact Or.inl hp
  | daemon text now => exact Or.inl hp
  | copy x now => exact Or.inl hp
  | pin x now => exact Or.inl hp
  | rename x a => exact Or.inl hp
  | delete x => exact Or.inl hp
  | clear all tag unpinned => exact Or.inl hp
  | editRead proc x =>
    simp only [step] at hp
    split at hp
    · rename_i key original hf
      rcases List.mem_cons.1 hp with h | h
      · obtain ⟨e0, he0, h0⟩ := editFind_mem _ _ _ hf
        right
        simp only [Prod.mk.injEq] at h0
        exact ⟨e0, he0, by rw [h, h0.1], by rw [h, h0.2]⟩
      · exact Or.inl (List.mem_of_mem_filter h)
    · exact Or.inl hp
  | editSave proc newText =>
    simp only [step] at hp
    split at hp
    · exact Or.inl (List.mem_of_mem_filter hp)
    · exact Or.inl hp


/-! ## Six fields in every record the program stores -/

theorem step_six_fields (s : Sys) (op : Op)
    (h1 : ∀ e ∈ s.bucket.entries, 6 ≤ (split e.2).length)
    (h2 : ∀ p ∈ s.editing, 6 ≤ p.2.2.length) :
    (∀ e ∈ (step s op).1.bucket.entries, 6 ≤ (split e.2).length)
      ∧ ∀ p ∈ (step s op).1.editing, 6 ≤ p.2.2.length := by
  constructor
  · intro e he
    rcases step_entries s op e he with h | ⟨e0, he0, _, h | h⟩ | ⟨p, hp, _, h⟩ | ⟨_, h, _⟩
    · exact h1 e h
    · exact h
    · have := h1 e0 he0; omega
    · have := h2 p hp; omega
    · exact h
  · intro p hp
    rcases step_editing s op p hp with h | ⟨e0, he0, _, h⟩
    · exact h2 p h
    · rw [h]; exact h1 e0 he0

theorem run_six_fields (ops : List Op) :
    ∀ (s : Sys), (∀ e ∈ s.bucket.entries, 6 ≤ (split e.2).length) →
      (∀ p ∈ s.editing, 6 ≤ p.2.2.length) →
      (∀ e ∈ (run s ops).1.bucket.entries, 6 ≤ (split e.2).length)
        ∧ ∀ p ∈ (run s ops).1.editing, 6 ≤ p.2.2.length := by
  induction ops with
  | nil => intro s h1 h2; exact ⟨h1, h2⟩
  | cons op ops ih =>
    intro s h1 h2
    obtain ⟨h3, h4⟩ := step_six_fields s op h1 h2
    exact ih (step s op).1 h3 h4

/-! ## No panic on records that are long enough -/

theorem copySnippet_isSome (x : String) (now : Int) (b : Bucket)
    (h : ∀ e ∈ b.entries, 4 ≤ (split e.2).length) : (copySnippet x now b).isSome = true := by
  rcases copySnippet_cases x now b with h1 | h1 | ⟨_, _, _, _, h1⟩
  · unfold copySnippet at h1 ⊢
    rw [copyScan_eq] at h1 ⊢
    cases hl : lookupShown x b.entries with
    | none => rfl
    | some e0 =>
      rw [hl] at h1
      obtain ⟨nv, hv⟩ := copyValue_isSome (split e0.2) now (h e0 (lookupShown_mem _ _ _ hl))
      simp [hv] at h1
  · rw [h1]; rfl
  · rw [h1]; rfl

theorem pinSnippet_isSome (x : String) (now : Int) (b : Bucket)
    (h : ∀ e ∈ b.entries, 5 ≤ (split e.2).length) : (pinSnippet x now b).isSome = true := by
  rcases pinSnippet_cases x now b with h1 | h1 | ⟨_, _, _, _, h1⟩
  · unfold pinSnippet at h1 ⊢
    rw [pinScan_eq] at h1 ⊢
    cases hl : lookupShown x b.entries with
    | none => rfl
    | some e0 =>
      rw [hl] at h1
      obtain ⟨nv, hv⟩ := pinValue_isSome (split e0.2) now (h e0 (lookupShown_mem _ _ _ hl))
      simp [hv] at h1
  · rw [h1]; rfl
  · rw [h1]; rfl

theorem updateAlias_isSome (x a : String) (b : Bucket)
    (h : ∀ e ∈ b.entries, 3 ≤ (split e.2).length) : (updateAlias x a b).isSome = true := by
  unfold updateAlias
  rw [aliasScan_eq, lookupStored_eq_find x b.entries h]
  cases b.entries.find? (fun e => decide (e.1 = x ∨ field e.2 2 = x)) <;> rfl

theorem deleteSnippet_isSome (x : String) (b : Bucket)
    (h : ∀ e ∈ b.entries, 3 ≤ (split e.2).length) : (deleteSnippet x b).isSome = true := by
  unfold deleteSnippet
  rw [deleteScan_eq, lookupStored_eq_find x b.entries h]
  cases b.entries.find? (fun e => decide (e.1 = x ∨ field e.2 2 = x)) <;> rfl

theorem clearScan_isSome (all : Bool) (tag : String) (unpinned : Bool) (rest : List Entry)
    (h : ∀ e ∈ rest, 4 ≤ (split e.2).length) :
    ∀ (d : Nat) (cur : Bucket), (clearScan all tag unpinned rest d cur).isSome = true := by
  induction rest with
  | nil => intro d cur; rfl
  | cons e rest ih =>
    intro d cur
    obtain ⟨k, v⟩ := e
    have hlen : 4 ≤ (split v).length := h (k, v) (by simp)
    have ih2 := ih (fun e he => h e (List.mem_cons_of_mem _ he))
    simp only [clearScan, getElem?_of_lt_length (split v) 1 (by omega),
      getElem?_of_lt_length (split v) 2 (by omega), getElem?_of_lt_length (split v) 3 (by omega)]
    split
    · exact ih2 _ _
    · exact ih2 _ _

theorem tuiScan_isSome (rest : List Entry) (h : ∀ e ∈ rest, 3 ≤ (split e.2).length) :
    ∀ (acc : List Item × List Item), (tuiScan rest acc).isSome = true := by
  induction rest with
  | nil => intro acc; rfl
  | cons e rest ih =>
    intro acc
    obtain ⟨k, v⟩ := e
    obtain ⟨pinned, others⟩ := acc
    have hlen : 3 ≤ (split v).length := h (k, v) (by simp)
    have ih2 := ih (fun e he => h e (List.mem_cons_of_mem _ he))
    simp only [tuiScan, getElem?_of_lt_length (split v) 1 (by omega),
      getElem?_of_lt_length (split v) 2 (by omega)]
    split
    · exact ih2 _
    · exact ih2 _

theorem launchTUI_isSome (b : Bucket) (h : ∀ e ∈ b.entries, 3 ≤ (split e.2).length) :
    (launchTUI b).isSome = true := by
  unfold launchTUI
  have := tuiScan_isSome b.entries h ([], [])
  cases ht : tuiScan b.entries ([], []) with
  | none => rw [ht] at this; exact absurd this (by decide)
  | some r => rfl

/-- C17. In the store reached from the empty store by any run of saves, daemon
iterations, copies, pins, renames, deletes, clears and both halves of edits,
with arbitrary string arguments, every record splits at `|` into at least six
fields; hence on such a store copy, pin, rename, delete, clear and the loader
of the interactive list never panic on a field index. -/
theorem reachable_records_have_six_fields (ops : List Op) :
    (∀ e ∈ (run Sys.init ops).1.bucket.entries, 6 ≤ (split e.2).length)
      ∧ ∀ (x a : String) (now : Int) (all : Bool) (tag : String) (unpinned : Bool),
          (copySnippet x now (run Sys.init ops).1.bucket).isSome = true
            ∧ (pinSnippet x now (run Sys.init ops).1.bucket).isSome = true
            ∧ (updateAlias x a (run Sys.init ops).1.bucket).isSome = true
            ∧ (deleteSnippet x (run Sys.init ops).1.bucket).isSome = true
            ∧ (clearSnippets all tag unpinned (run Sys.init ops).1.bucket).isSome = true
            ∧ (launchTUI (run Sys.init ops).1.bucket).isSome = true := by
  have h6 := (run_six_fields ops Sys.init (by simp [Sys.init, Bucket.empty])
    (by simp [Sys.init])).1
  refine ⟨h6, ?_⟩
  intro x a now all tag unpinned
  refine ⟨copySnippet_isSome _ _ _ ?_, pinSnippet_isSome _ _ _ ?_, updateAlias_isSome _ _ _ ?_,
    deleteSnippet_isSome _ _ ?_, clearScan_isSome _ _ _ _ ?_ _ _, launchTUI_isSome _ ?_⟩ <;>
    (intro e he; have := h6 e he; omega)

/-! ## Keys in byte order -/

theorem lessChars_trans (a : List Char) :
    ∀ (b c : List Char), lessChars a b = true → lessChars b c = true → lessChars a c = true := by
  induction a with
  | nil =>
    intro b c hab hbc
    cases c with
    | nil => cases b <;> simp [lessChars] at hbc
    | cons z zs => rfl
  | cons x xs ih =>
    intro b c hab hbc
    cases b with
    | nil => simp [lessChars] at hab
    | cons y ys =>
      cases c with
      | nil => simp [lessChars] at hbc
      | cons z zs =>
        simp only [lessChars] at hab hbc ⊢
        by_cases h1 : x.toNat < y.toNat
        · by_cases h2 : y.toNat < z.toNat
          · rw [if_pos (by omega)]
          · by_cases h3 : z.toNat < y.toNat
            · simp [h2, h3] at hbc
            · rw [if_pos (by omega)]
        · by_cases h1' : y.toNat < x.toNat
          · simp [h1, h1'] at hab
          · simp only [h1, h1', if_false] at hab
            by_cases h2 : y.toNat < z.toNat
            · rw [if_pos (by omega)]
            · by_cases h3 : z.toNat < y.toNat
              · simp [h2, h3] at hbc
              · simp only [h2, h3, if_false] at hbc
                rw [if_neg (by omega), if_neg (by omega)]
                exact ih ys zs hab hbc

theorem keyLess_trans (a b c : String) (hab : keyLess a b = true) (hbc : keyLess b c = true) :
    keyLess a c = true :=
  lessChars_trans _ _ _ hab hbc

theorem putEntries_sorted (k v : String) (es : List Entry) (hs : SortedKeys es) :
    SortedKeys (putEntries k v es) := by
  induction es with
  | nil => simp [putEntries, SortedKeys]
  | cons r es ih =>
    have hs2 := List.pairwise_cons.1 hs
    simp only [putEntries]
    by_cases h1 : r.1 = k
    · rw [if_pos h1]
      exact List.pairwise_cons.2 ⟨fun e he => by rw [← h1]; exact hs2.1 e he, hs2.2⟩
    · rw [if_neg h1]
      by_cases h2 : keyLess k r.1 = true
      · rw [if_pos h2]
        refine List.pairwise_cons.2 ⟨?_, hs⟩
        intro e he
        rcases List.mem_cons.1 he with he | he
        · rw [he]; exact h2
        · exact keyLess_trans _ _ _ h2 (hs2.1 e he)
      · rw [if_neg h2]
        refine List.pairwise_cons.2 ⟨?_, ih hs2.2⟩
        intro e he
        rcases mem_putEntries _ _ _ _ he with he | he
        · rw [he]
          exact keyLess_total _ _ h1 (by simpa using h2)
        · exact hs2.1 e he

theorem putEntries_keys (k v : String) (es : List Entry) (h : ∀ e ∈ es, e.1 ≠ k) :
    ((putEntries k v es).map Prod.fst).Perm (k :: es.map Prod.fst) := by
  induction es with
  | nil => simp [putEntries]
  | cons r es ih =>
    have h1 : r.1 ≠ k := h r (by simp)
    simp only [putEntries, h1, if_false]
    split
    · exact List.Perm.refl _
    · simp only [List.map_cons]
      exact ((ih (fun e he => h e (List.mem_cons_of_mem _ he))).cons r.1).trans
        (List.Perm.swap k r.1 _)

/-! ## Decimal ids in byte order -/

theorem natRepr_injective (a b : Nat) (h : toString a = toString b) : a = b := by
  have h1 := digitsValue_natRepr a
  rw [h, digitsValue_natRepr] at h1
  exact h1.symm

theorem foldl_digits (cs : List Char) :
    ∀ (init : Nat), cs.foldl (fun a d => 10 * a + (d.toNat - '0'.toNat)) init
      = init * 10 ^ cs.length + digitsValue cs := by
  induction cs with
  | nil => intro init; simp [digitsValue]
  | cons c cs ih =>
    intro init
    have e1 := ih (10 * init + (c.toNat - '0'.toNat))
    have e2 := ih (10 * 0 + (c.toNat - '0'.toNat))
    simp only [List.foldl_cons, digitsValue, List.length_cons] at e1 e2 ⊢
    rw [e1, e2]
    ring

theorem digitsValue_cons (c : Char) (cs : List Char) :
    digitsValue (c :: cs) = (c.toNat - '0'.toNat) * 10 ^ cs.length + digitsValue cs := by
  have := foldl_digits cs (10 * 0 + (c.toNat - '0'.toNat))
  simp only [digitsValue, List.foldl_cons] at this ⊢
  rw [this]
  ring_nf

theorem digitsValue_lt (cs : List Char) (h : ∀ c ∈ cs, c.isDigit = true) :
    digitsValue cs < 10 ^ cs.length := by
  induction cs with
  | nil => simp [digitsValue]
  | cons c cs ih =>
    have hc := isDigit_toNat c (h c (by simp))
    have h0 : '0'.toNat = 48 := rfl
    have ih2 := ih (fun c hc => h c (List.mem_cons_of_mem _ hc))
    rw [digitsValue_cons, List.length_cons, pow_succ, h0]
    have h9 : (c.toNat - 48) * 10 ^ cs.length ≤ 9 * 10 ^ cs.length :=
      Nat.mul_le_mul_right _ (by omega)
    omega

theorem lessChars_digits (a : List Char) :
    ∀ (b : List Char), a.length = b.length → (∀ c ∈ a, c.isDigit = true) →
      (∀ c ∈ b, c.isDigit = true) →
      (lessChars a b = true ↔ digitsValue a < digitsValue b) := by
  induction a with
  | nil =>
    intro b hl _ _
    cases b with
    | nil => simp [lessChars, digitsValue]
    | cons y ys => simp at hl
  | cons x xs ih =>
    intro b hl ha hb
    cases b with
    | nil => simp at hl
    | cons y ys =>
      have hx := isDigit_toNat x (ha x (by simp))
      have hy := isDigit_toNat y (hb y (by simp))
      have h0 : '0'.toNat = 48 := rfl
      have hl2 : xs.length = ys.length := by simpa using hl
      have hxs := digitsValue_lt xs (fun c hc => ha c (List.mem_cons_of_mem _ hc))
      have hys := digitsValue_lt ys (fun c hc => hb c (List.mem_cons_of_mem _ hc))
      have ih2 := ih ys hl2 (fun c hc => ha c (List.mem_cons_of_mem _ hc))
        (fun c hc => hb c (List.mem_cons_of_mem _ hc))
      rw [digitsValue_cons, digitsValue_cons, h0, hl2]
      rw [hl2] at hxs
      simp only [lessChars]
      by_cases h1 : x.toNat < y.toNat
      · rw [if_pos h1]
        have hm : (x.toNat - 48 + 1) * 10 ^ ys.length ≤ (y.toNat - 48) * 10 ^ ys.length :=
          Nat.mul_le_mul_right _ (by omega)
        rw [Nat.add_mul, Nat.one_mul] at hm
        constructor
        · intro _; omega
        · intro _; rfl
      · rw [if_neg h1]
        by_cases h2 : y.toNat < x.toNat
        · rw [if_pos h2]
          have hm : (y.toNat - 48 + 1) * 10 ^ ys.length ≤ (x.toNat - 48) * 10 ^ ys.length :=
            Nat.mul_le_mul_right _ (by omega)
          rw [Nat.add_mul, Nat.one_mul] at hm
          constructor
          · intro h; exact absurd h (by decide)
          · intro h; omega
        · rw [if_neg h2]
          have he : x.toNat = y.toNat := by omega
          rw [he, ih2]
          omega

theorem keyLess_natRepr (a b : Nat) (h : (toString a).length = (toString b).length) :
    keyLess (toString a) (toString b) = true ↔ a < b := by
  have := lessChars_digits (toString a).data (toString b).data h (natRepr_isDigit a)
    (natRepr_isDigit b)
  rw [digitsValue_natRepr, digitsValue_natRepr] at this
  exact this


/-! ## The scan order after successive saves -/

theorem saveAll_keys (args : List (String × String × String × Int)) :
    ∀ (b : Bucket), b.sequence + args.length < 2 ^ 64 → SortedKeys b.entries →
      (b.entries.map Prod.fst).Perm ((List.range' 1 b.sequence).map toString) →
      SortedKeys (saveAll args b).entries
        ∧ ((saveAll args b).entries.map Prod.fst).Perm
            ((List.range' 1 (b.sequence + args.length)).map toString) := by
  induction args with
  | nil => intro b _ hs hp; exact ⟨hs, hp⟩
  | cons a args ih =>
    intro b hb hs hp
    obtain ⟨text, tag, al, now⟩ := a
    simp only [List.length_cons] at hb
    have hseq : (b.sequence + 1) % 2 ^ 64 = b.sequence + 1 := Nat.mod_eq_of_lt (by omega)
    have hb1 : (saveSnippet text tag al now b).2
        = { sequence := b.sequence + 1,
            entries := putEntries (toString (b.sequence + 1))
              (sprintf6 text tag al "false" "0" (toString now)) b.entries } := by
      simp only [saveSnippet, Bucket.nextSequence, Bucket.put, hseq]
    have hfresh : ∀ e ∈ b.entries, e.1 ≠ toString (b.sequence + 1) := by
      intro e he hk
      have hm : e.1 ∈ (List.range' 1 b.sequence).map toString :=
        hp.subset (List.mem_map_of_mem _ he)
      obtain ⟨i, hi, hik⟩ := List.mem_map.1 hm
      have hi2 := List.mem_range'_1.1 hi
      have := natRepr_injective _ _ (hik.trans hk)
      omega
    simp only [saveAll]
    rw [hb1]
    have h := ih ⟨b.sequence + 1, putEntries (toString (b.sequence + 1))
        (sprintf6 text tag al "false" "0" (toString now)) b.entries⟩
      (by simp only; omega) (putEntries_sorted _ _ _ hs)
      (by
        simp only
        refine (putEntries_keys _ _ _ hfresh).trans ?_
        rw [List.range'_concat, List.map_append]
        refine ((hp.cons _).trans ?_)
        simp only [List.map_cons, List.map_nil, Nat.one_mul]
        rw [Nat.add_comm 1 b.sequence]
        exact (List.perm_append_singleton _ _).symm)
    simp only at h
    rw [List.length_cons, show b.sequence + (args.length + 1) = b.sequence + 1 + args.length by omega]
    exact h

/-- C15 (amended). In the store built by successive saves (fewer than `2^64`)
the records are those of the ids `1, …, n`, and the scan visits them in the
byte order of their decimal ids: every record scanned earlier has the smaller
key in that order.  For two ids with the same number of digits the byte order
is the numeric order. -/
theorem saves_scanned_in_byte_order (args : List (String × String × String × Int))
    (hlen : args.length < 2 ^ 64) :
    SortedKeys (saveAll args Bucket.empty).entries
      ∧ ((saveAll args Bucket.empty).entries.map Prod.fst).Perm
          ((List.range' 1 args.length).map toString)
      ∧ ∀ a b : Nat, (toString a).length = (toString b).length →
          (keyLess (toString a) (toString b) = true ↔ a < b) := by
  have h := saveAll_keys args Bucket.empty (by simpa [Bucket.empty] using hlen)
    (by simp [Bucket.empty, SortedKeys]) (by simp [Bucket.empty])
  simp only [Bucket.empty, Nat.zero_add] at h
  exact ⟨h.1, h.2, keyLess_natRepr⟩

theorem saves_scanned_in_byte_order_witness :
    SortedKeys (saveAll [("a", "", "", 1), ("b", "t", "", 2)] Bucket.empty).entries
      ∧ ((saveAll [("a", "", "", 1), ("b", "t", "", 2)] Bucket.empty).entries.map Prod.fst).Perm
          ((List.range' 1 [("a", "", "", (1 : Int)), ("b", "t", "", 2)].length).map toString)
      ∧ ∀ a b : Nat, (toString a).length = (toString b).length →
          (keyLess (toString a) (toString b) = true ↔ a < b) :=
  saves_scanned_in_byte_order [("a", "", "", 1), ("b", "t", "", 2)] (by decide)

/-- C15 as stated fails: after ten saves the scan meets the record of id `10`
right after that of id `1` and before that of id `2`. -/
theorem ten_scanned_before_two :
    (saveAll (List.replicate 10 ("x", "", "", 0)) Bucket.empty).entries.map Prod.fst
        = ["1", "10", "2", "3", "4", "5", "6", "7", "8", "9"]
      ∧ (listSnippets (saveAll (List.replicate 10 ("x", "", "", 0)) Bucket.empty)).2.2.map
          (fun row => row.headD "") = ["1", "10", "2", "3", "4", "5", "6", "7", "8", "9"] := by
  decide

/-! ## Keys stay in byte order -/

theorem deleteEntries_sorted (k : String) (es : List Entry) (hs : SortedKeys es) :
    SortedKeys (deleteEntries k es) := by
  induction es with
  | nil => exact hs
  | cons r es ih =>
    have hs2 := List.pairwise_cons.1 hs
    simp only [deleteEntries]
    split
    · exact hs2.2
    · exact List.pairwise_cons.2
        ⟨fun e he => hs2.1 e (mem_deleteEntries _ _ _ he), ih hs2.2⟩

theorem clearScan_sorted (all : Bool) (tag : String) (unpinned : Bool) (rest : List Entry) :
    ∀ (d : Nat) (cur : Bucket) (r : Nat × Bucket),
      clearScan all tag unpinned rest d cur = some r → SortedKeys cur.entries →
        SortedKeys r.2.entries := by
  induction rest with
  | nil =>
    intro d cur r h hs
    simp only [clearScan, Option.some.injEq] at h
    rw [← h]
    exact hs
  | cons x rest ih =>
    intro d cur r h hs
    obtain ⟨k, v⟩ := x
    simp only [clearScan] at h
    split at h
    · split at h
      · exact ih _ _ _ h (deleteEntries_sorted k _ hs)
      · exact ih _ _ _ h hs
    · exact absurd h (by simp)

theorem step_sorted (s : Sys) (op : Op) (hs : SortedKeys s.bucket.entries) :
    SortedKeys (step s op).1.bucket.entries := by
  cases op with
  | save text tag a now => exact putEntries_sorted _ _ _ hs
  | daemon text now =>
    simp only [step, daemonStep]
    split
    · exact putEntries_sorted _ _ _ hs
    · exact hs
  | copy x now =>
    simp only [step]
    rcases copySnippet_cases x now s.bucket with h | h | ⟨_, _, _, _, h⟩ <;> rw [h]
    · exact hs
    · exact hs
    · exact putEntries_sorted _ _ _ hs
  | pin x now =>
    simp only [step]
    rcases pinSnippet_cases x now s.bucket with h | h | ⟨_, _, _, _, h⟩ <;> rw [h]
    · exact hs
    · exact hs
    · exact putEntries_sorted _ _ _ hs
  | rename x a =>
    simp only [step]
    rcases updateAlias_cases x a s.bucket with h | h | ⟨_, _, h⟩ <;> rw [h]
    · exact hs
    · exact hs
    · exact putEntries_sorted _ _ _ hs
  | delete x =>
    simp only [step]
    rcases deleteSnippet_cases x s.bucket with h | h | ⟨_, _, h⟩ <;> rw [h]
    · exact hs
    · exact hs
    · exact deleteEntries_sorted _ _ hs
  | clear all tag unpinned =>
    simp only [step]
    cases h : clearSnippets all tag unpinned s.bucket with
    | none => exact hs
    | some r => exact clearScan_sorted _ _ _ _ _ _ _ h hs
  | editRead proc x =>
    simp only [step]
    split <;> exact hs
  | editSave proc newText =>
    simp only [step]
    split
    · exact putEntries_sorted _ _ _ hs
    · exact hs

/-- Every store reached from the empty store keeps its keys in byte order, as
the theorems about copy and clear assume. -/
theorem run_sorted (ops : List Op) :
    ∀ (s : Sys), SortedKeys s.bucket.entries → SortedKeys (run s ops).1.bucket.entries := by
  induction ops with
  | nil => intro s hs; exact hs
  | cons op ops ih => intro s hs; exact ih (step s op).1 (step_sorted s op hs)

/-! ## Splitting a record at every bar -/

theorem splitChars_cons_of_ne (c : Char) (cs : List Char) (h : c ≠ '|') :
    splitChars (c :: cs) = (c :: (splitChars cs).headD []) :: (splitChars cs).tail := by
  simp only [splitChars, h, if_false]
  split
  · rename_i e; exact absurd e (splitChars_ne_nil cs)
  · rename_i f fs e; rw [e]; rfl

theorem splitChars_append_bar (a r : List Char) :
    splitChars (a ++ '|' :: r) = splitChars a ++ splitChars r := by
  induction a with
  | nil => simp [splitChars]
  | cons c cs ih =>
    by_cases hc : c = '|'
    · subst hc
      have h1 : splitChars ('|' :: (cs ++ '|' :: r)) = [] :: splitChars (cs ++ '|' :: r) := by
        simp [splitChars]
      have h2 : splitChars ('|' :: cs) = [] :: splitChars cs := by
        simp [splitChars]
      rw [List.cons_append, h1, h2, ih, List.cons_append]
    · rw [List.cons_append, splitChars_cons_of_ne _ _ hc, splitChars_cons_of_ne _ _ hc, ih]
      cases hs : splitChars cs with
      | nil => exact absurd hs (splitChars_ne_nil cs)
      | cons f fs => rfl

theorem split_append_bar (a r : String) : split (a ++ "|" ++ r) = split a ++ split r := by
  have hbar : ("|" : String).data = ['|'] := rfl
  simp only [split, String.data_append, hbar, List.append_assoc, List.singleton_append,
    splitChars_append_bar, List.map_append]

theorem split_sprintf6_append (a b c d e f : String) :
    split (sprintf6 a b c d e f)
      = split a ++ (split b ++ (split c ++ (split d ++ (split e ++ split f)))) := by
  have h : sprintf6 a b c d e f
      = a ++ "|" ++ (b ++ "|" ++ (c ++ "|" ++ (d ++ "|" ++ (e ++ "|" ++ f)))) := by
    simp only [sprintf6, String.append_assoc]
  rw [h]
  simp only [split_append_bar]

/-! ## Keys are issued ids -/

theorem get_putEntries_other (k v k1 : String) (es : List Entry) (h : k1 ≠ k) :
    (putEntries k v es).find? (fun e => e.1 == k1) = es.find? (fun e => e.1 == k1) := by
  have hk : (k == k1) = false := by simpa using fun e => h e.symm
  induction es with
  | nil => simp [putEntries, hk]
  | cons r es ih =>
    simp only [putEntries]
    split
    · rename_i h1
      have hr : (r.1 == k1) = false := by rw [h1]; exact hk
      simp [List.find?_cons, hk, hr]
    · split
      · simp [List.find?_cons, hk]
      · simp only [List.find?_cons, ih]

theorem step_issuedKeys (s : Sys) (op : Op) (hb : s.bucket.sequence + 1 < 2 ^ 64)
    (h1 : ∀ e ∈ s.bucket.entries, IssuedKey s.bucket.sequence e.1)
    (h2 : ∀ p ∈ s.editing, IssuedKey s.bucket.sequence p.2.1) :
    (∀ e ∈ (step s op).1.bucket.entries, IssuedKey (step s op).1.bucket.sequence e.1)
      ∧ (∀ p ∈ (step s op).1.editing, IssuedKey (step s op).1.bucket.sequence p.2.1)
      ∧ (step s op).1.bucket.sequence ≤ s.bucket.sequence + 1 := by
  have hm : (s.bucket.sequence + 1) % 2 ^ 64 = s.bucket.sequence + 1 :=
    Nat.mod_eq_of_lt hb
  have hseq : s.bucket.sequence ≤ (step s op).1.bucket.sequence
      ∧ (step s op).1.bucket.sequence ≤ s.bucket.sequence + 1 := by
    rcases step_sequence s op with ⟨_, h⟩ | ⟨_, h⟩
    · rw [h]; omega
    · rw [h, hm]; omega
  have mono : ∀ k, IssuedKey s.bucket.sequence k → IssuedKey (step s op).1.bucket.sequence k := by
    intro k ⟨i, hi1, hi2, hk⟩
    exact ⟨i, hi1, by omega, hk⟩
  refine ⟨?_, ?_, hseq.2⟩
  · intro e he
    rcases step_entries s op e he with h | ⟨e0, he0, hk, _⟩ | ⟨p, hp, hk, _⟩ | ⟨hk, _, hs⟩
    · exact mono _ (h1 e h)
    · rw [hk]; exact mono _ (h1 e0 he0)
    · rw [hk]; exact mono _ (h2 p hp)
    · rw [hk, hs, hm]
      exact ⟨s.bucket.sequence + 1, by omega, by omega, rfl⟩
  · intro p hp
    rcases step_editing s op p hp with h | ⟨e0, he0, hk, _⟩
    · exact mono _ (h2 p h)
    · rw [hk]; exact mono _ (h1 e0 he0)

theorem run_issuedKeys (ops : List Op) :
    ∀ (s : Sys), s.bucket.sequence + ops.length < 2 ^ 64 →
      (∀ e ∈ s.bucket.entries, IssuedKey s.bucket.sequence e.1) →
      (∀ p ∈ s.editing, IssuedKey s.bucket.sequence p.2.1) →
      (∀ e ∈ (run s ops).1.bucket.entries, IssuedKey (run s ops).1.bucket.sequence e.1)
        ∧ (run s ops).1.bucket.sequence ≤ s.bucket.sequence + ops.length := by
  induction ops with
  | nil => intro s _ h1 _; exact ⟨h1, by simp [run]⟩
  | cons op ops ih =>
    intro s hb h1 h2
    simp only [List.length_cons] at hb
    obtain ⟨h3, h4, h5⟩ := step_issuedKeys s op (by omega) h1 h2
    obtain ⟨h6, h7⟩ := ih (step s op).1 (by omega) h3 h4
    refine ⟨h6, ?_⟩
    show (run (step s op).1 ops).1.bucket.sequence ≤ s.bucket.sequence + (ops.length + 1)
    omega

/-- C16 (amended). One iteration of the daemon on a store reached from the
empty store (by fewer than `2^64 - 1` transactions), with `last = L` and the
clipboard reading `t`.  If `t` is non-empty and differs from `L`, a record is
saved under the next id of the sequence, which no record had, `last` becomes
`t`, and every other record is as before; the fields of the new record are
the pieces of `t` between its `|` characters followed by `auto`, an empty
alias, `false`, `0` and the timestamp, that is text `t`, tag `auto`, … when
`t` has no `|`.  Otherwise the iteration leaves the store and `last` as they
are.  Either way the iteration ends in the state of the next one. -/
theorem daemon_iteration (ops : List Op) (hops : ops.length + 1 < 2 ^ 64) (t L : String)
    (now : Int) :
    (t ≠ "" ∧ t ≠ L →
        ∃ id v,
          daemonStep t now L (run Sys.init ops).1.bucket
              = (t, ⟨id, putEntries (toString id) v (run Sys.init ops).1.bucket.entries⟩,
                  some id)
            ∧ (run Sys.init ops).1.bucket.get (toString id) = none
            ∧ Bucket.get ⟨id, putEntries (toString id) v (run Sys.init ops).1.bucket.entries⟩
                (toString id) = some v
            ∧ (∀ k, k ≠ toString id →
                Bucket.get ⟨id, putEntries (toString id) v (run Sys.init ops).1.bucket.entries⟩ k
                  = (run Sys.init ops).1.bucket.get k)
            ∧ split v = split t ++ ["auto", "", "false", "0", toString now])
      ∧ (¬ (t ≠ "" ∧ t ≠ L) →
          daemonStep t now L (run Sys.init ops).1.bucket = (L, (run Sys.init ops).1.bucket, none)) := by
  obtain ⟨hkeys, hseq⟩ := run_issuedKeys ops Sys.init
    (by simp only [Sys.init, Bucket.empty]; omega) (by simp [Sys.init, Bucket.empty])
    (by simp [Sys.init])
  have hseq2 : (run Sys.init ops).1.bucket.sequence ≤ ops.length := by
    simpa [Sys.init, Bucket.empty] using hseq
  generalize (run Sys.init ops).1.bucket = b at hkeys hseq2 ⊢
  have hm : (b.sequence + 1) % 2 ^ 64 = b.sequence + 1 := Nat.mod_eq_of_lt (by omega)
  constructor
  · intro hc
    refine ⟨b.sequence + 1, sprintf6 t "auto" "" "false" "0" (toString now), ?_, ?_, ?_, ?_, ?_⟩
    · simp only [daemonStep, if_pos hc, Bucket.nextSequence, Bucket.put, hm]
    · simp only [Bucket.get, Option.map_eq_none', List.find?_eq_none]
      intro e he
      obtain ⟨i, _, hi, hk⟩ := hkeys e he
      simp only [beq_iff_eq]
      intro h
      have := natRepr_injective _ _ (hk.symm.trans h)
      omega
    · simp only [Bucket.get, get_putEntries_self, Option.map]
    · intro k hk
      simp only [Bucket.get, get_putEntries_other _ _ _ _ hk]
    · rw [split_sprintf6_append, split_of_not_mem (toString now) (bar_not_mem_intRepr now)]
      have h1 : split "auto" = ["auto"] := by decide
      have h2 : split "" = [""] := by decide
      have h3 : split "false" = ["false"] := by decide
      have h4 : split "0" = ["0"] := by decide
      rw [h1, h2, h3, h4]
      rfl
  · intro hc
    simp only [daemonStep, if_neg hc]

theorem daemon_iteration_witness :
    (("buy milk" : String) ≠ "" ∧ "buy milk" ≠ "eggs" →
        ∃ id v,
          daemonStep "buy milk" 300 "eggs"
              (run Sys.init [.save "a" "" "" 1, .daemon "eggs" 2, .delete "1"]).1.bucket
              = ("buy milk",
                  ⟨id, putEntries (toString id) v
                    (run Sys.init [.save "a" "" "" 1, .daemon "eggs" 2, .delete "1"]).1.bucket.entries⟩,
                  some id)
            ∧ (run Sys.init [.save "a" "" "" 1, .daemon "eggs" 2, .delete "1"]).1.bucket.get
                (toString id) = none
            ∧ Bucket.get ⟨id, putEntries (toString id) v
                (run Sys.init [.save "a" "" "" 1, .daemon "eggs" 2, .delete "1"]).1.bucket.entries⟩
                (toString id) = some v
            ∧ (∀ k, k ≠ toString id →
                Bucket.get ⟨id, putEntries (toString id) v
                  (run Sys.init [.save "a" "" "" 1, .daemon "eggs" 2,
                    .delete "1"]).1.bucket.entries⟩ k
                  = (run Sys.init [.save "a" "" "" 1, .daemon "eggs" 2, .delete "1"]).1.bucket.get k)
            ∧ split v = split "buy milk" ++ ["auto", "", "false", "0", toString (300 : Int)])
      ∧ (¬ (("buy milk" : String) ≠ "" ∧ "buy milk" ≠ "eggs") →
          daemonStep "buy milk" 300 "eggs"
              (run Sys.init [.save "a" "" "" 1, .daemon "eggs" 2, .delete "1"]).1.bucket
            = ("eggs", (run Sys.init [.save "a" "" "" 1, .daemon "eggs" 2, .delete "1"]).1.bucket,
                none)) :=
  daemon_iteration [.save "a" "" "" 1, .daemon "eggs" 2, .delete "1"] (by decide) "buy milk"
    "eggs" 300

/-- C16 as stated fails for a clipboard text with a `|`: the daemon saves
`a|b` as the record `a|b|auto||false|0|300`, whose text is `a`, whose tag is
`b` and whose alias is `auto`. -/
theorem daemon_saves_bar_text_shifted :
    daemonStep "a|b" 300 "" Bucket.empty = ("a|b", ⟨1, [("1", "a|b|auto||false|0|300")]⟩, some 1)
      ∧ split "a|b|auto||false|0|300" = ["a", "b", "auto", "", "false", "0", "300"]
      ∧ listSnippets ⟨1, [("1", "a|b|auto||false|0|300")]⟩ = (1, [], [["1", "a", "b", "auto"]]) := by
  decide

end Grb
